import Mathlib

/-!
# Concurrent crawler (`crawler.go`): an interleaving model

`Crawl` is embedded as a small-step machine.  One goroutine running `Crawl`
is a `Task`; the goroutines a task has started live below it, child `k`
being the goroutine that owns the channel `chs[k]`.  A scheduling choice is
an `Action`: the consumer loop of `main` receives on the root channel, or
the task at a given position of the tree runs its next statement, or one of
the two effects of an unsynchronised map access described below takes
place.  Channels are unbuffered, so a send completes in the step in which
its receiver takes the value.

`Cache` is passed to `Crawl` by value.  Its `visited` field is a Go map, a
reference to a single table, which is a field of the shared memory; its
`mux` field is a `sync.Mutex` value, which is copied at every call, so each
task carries its own copy, and `Lock` blocks only on that copy.

Each statement is one step.  Because the mutex does not exclude, two tasks
can be at a statement that accesses the map at the same time; the Go runtime
checks a map for unsynchronised access and stops the process with a fatal
error when a write overlaps another write or a read, and a write that
overlaps another write may instead leave no key behind.  Both are steps of
the model (`Action.fault`, `Action.lose`), possible exactly when two tasks
are at their map statement together.  The loop of lines 47-51, which
starts the children without blocking, is one step.  A fetcher is a function:
it answers a given url the same way each time.
-/

namespace Crawler

/-- The `Response` record of `crawler.go`. -/
structure Response where
  url : String
  body : String
  deriving DecidableEq

/-- The `Fetcher` interface, for a fetcher that answers a given url the same
way each time: `none` is a non-nil `err`, `some (body, urls)` a success. -/
abbrev Fetcher := String → Option (String × List String)

/-- The `fakeResult` struct. -/
structure fakeResult where
  body : String
  urls : List String
  deriving DecidableEq

/-- The `fakeFetcher` map type, as its list of key/value entries. -/
abbrev fakeFetcher := List (String × fakeResult)

/-- The method `fakeFetcher.Fetch`: the entry under `url`, else an error. -/
def fakeFetcher.Fetch (f : fakeFetcher) : Fetcher := fun url =>
  match f.lookup url with
  | some res => some (res.body, res.urls)
  | none => none

/-- The package variable `fetcher`. -/
def fetcher : fakeFetcher :=
  [ ("https://golang.org/",
      ⟨"The Go Programming Language",
       ["https://golang.org/pkg/", "https://golang.org/cmd/"]⟩),
    ("https://golang.org/pkg/",
      ⟨"Packages",
       ["https://golang.org/", "https://golang.org/cmd/",
        "https://golang.org/pkg/fmt/", "https://golang.org/pkg/os/"]⟩),
    ("https://golang.org/pkg/fmt/",
      ⟨"Package fmt", ["https://golang.org/", "https://golang.org/pkg/"]⟩),
    ("https://golang.org/pkg/os/",
      ⟨"Package os", ["https://golang.org/", "https://golang.org/pkg/"]⟩) ]

/-- Program points of `Crawl` before its first channel operation. -/
inductive PC where
  /-- Lines 27-30: `defer close(ch)` and the test `depth <= 0`. -/
  | start
  /-- Line 32: `cache.mux.Lock()`. -/
  | lock
  /-- Line 33: the test `cache.visited[url]`. -/
  | test
  /-- Lines 34-35: `cache.mux.Unlock()` and `return`. -/
  | unlockRet
  /-- Line 37: `cache.visited[url] = true`. -/
  | mark
  /-- Line 38: `cache.mux.Unlock()`. -/
  | unlock
  /-- Lines 40-44: the call of `fetcher.Fetch(url)` and the test of `err`. -/
  | fetch
  deriving DecidableEq

/-- One goroutine executing `Crawl(url, depth, fetcher, ch, cache)`.
`mux` is the state of this task's own copy of `cache.mux` (`true` when
locked).  `sent` lists the records the task has delivered on `ch` so far;
it is a history variable and no step reads it. -/
inductive Task where
  /-- Lines 27-44, at program point `pc`. -/
  | run (url : String) (depth : Int) (mux : Bool) (pc : PC)
  /-- Line 46: blocked in `ch <- Response{url, body}`. -/
  | send (url : String) (depth : Int) (mux : Bool) (body : String) (urls : List String)
  /-- Lines 47-51: about to create the channels `chs` and start the children. -/
  | spawn (url : String) (depth : Int) (mux : Bool) (body : String) (urls : List String)
      (sent : List Response)
  /-- Lines 53-57: the loops over `chs`; `i` is the outer loop index and
  `resp` holds a record received on `chs[i]` and not yet sent on `ch`
  (line 55). -/
  | drain (url : String) (body : String) (urls : List String) (sent : List Response)
      (resp : Option Response) (i : Nat) (chs : List Task)
  /-- Returned: `Crawl` has returned and the deferred `close(ch)` has run. -/
  | closed (url : String) (sent : List Response)

/-- Whether the task's channel is closed. -/
def Task.isClosed : Task → Bool
  | .closed _ _ => true
  | _ => false

/-- The records a task has delivered on its channel. -/
def Task.delivered : Task → List Response
  | .run _ _ _ _ => []
  | .send _ _ _ _ _ => []
  | .spawn _ _ _ _ _ sent => sent
  | .drain _ _ _ sent _ _ _ => sent
  | .closed _ sent => sent

/-- The url argument of the task's `Crawl` call. -/
def Task.url : Task → String
  | .run url _ _ _ => url
  | .send url _ _ _ _ => url
  | .spawn url _ _ _ _ _ => url
  | .drain url _ _ _ _ _ _ => url
  | .closed url _ => url

/-- The memory shared by all tasks, and the call log of the fetcher. -/
structure Shared where
  /-- The keys of the map `cache.visited` that hold `true`. -/
  visited : List String
  /-- The arguments of the calls of `fetcher.Fetch`, oldest first. -/
  fetched : List String
  /-- The urls whose fetch error was printed on line 42, oldest first. -/
  failed : List String
  deriving DecidableEq

/-- A task blocked in a send on its channel offers a record: the result is
the record and the task once the send has completed. -/
def Task.offer : Task → Option (Response × Task)
  | .send url depth mux body urls =>
      some (⟨url, body⟩, .spawn url depth mux body urls [⟨url, body⟩])
  | .drain url body urls sent (some r) i chs =>
      some (r, .drain url body urls (sent ++ [r]) none i chs)
  | _ => none

/-- The next statement of a task, run by the task itself. -/
def Task.own (f : Fetcher) (t : Task) (g : Shared) : Option (Task × Shared) :=
  match t with
  | .run url depth mux .start =>
      if depth ≤ 0 then some (.closed url [], g) else some (.run url depth mux .lock, g)
  | .run url depth mux .lock =>
      if mux then none else some (.run url depth true .test, g)
  | .run url depth mux .test =>
      if url ∈ g.visited then some (.run url depth mux .unlockRet, g)
      else some (.run url depth mux .mark, g)
  | .run url _ _ .unlockRet => some (.closed url [], g)
  | .run url depth mux .mark =>
      some (.run url depth mux .unlock, { g with visited := g.visited.insert url })
  | .run url depth _ .unlock => some (.run url depth false .fetch, g)
  | .run url depth mux .fetch =>
      match f url with
      | none =>
          some (.closed url [],
                { g with fetched := g.fetched ++ [url], failed := g.failed ++ [url] })
      | some (body, urls) =>
          some (.send url depth mux body urls, { g with fetched := g.fetched ++ [url] })
  | .send _ _ _ _ _ => none
  | .spawn url depth mux body urls sent =>
      some (.drain url body urls sent none 0
              (urls.map fun u => .run u (depth - 1) mux .start), g)
  | .drain url body urls sent none i chs =>
      match chs[i]? with
      | none => some (.closed url sent, g)
      | some c =>
          if c.isClosed then some (.drain url body urls sent none (i + 1) chs, g)
          else match c.offer with
            | some (r, c') => some (.drain url body urls sent (some r) i (chs.set i c'), g)
            | none => none
  | .drain _ _ _ _ (some _) _ _ => none
  | .closed _ _ => none

/-- The next statement of the task at position `p` below `t`: `[]` is `t`
itself, `k :: p` is position `p` below the child that owns `chs[k]`. -/
def Task.stepAt (f : Fetcher) : List Nat → Task → Shared → Option (Task × Shared)
  | [], t, g => t.own f g
  | k :: p, .drain url body urls sent resp i chs, g =>
      match chs[k]? with
      | none => none
      | some c =>
          match Task.stepAt f p c g with
          | none => none
          | some (c', g') => some (.drain url body urls sent resp i (chs.set k c'), g')
  | _ :: _, _, _ => none

/-- The whole program: the task started by `main`, the shared memory, and
the records `main` has received on the root channel. -/
structure State where
  root : Task
  shared : Shared
  out : List Response
  /-- Set once the runtime has stopped the process with a fatal error. -/
  aborted : Bool := false

/-- A scheduling choice. -/
inductive Action where
  /-- The loop of `main` (lines 64-66) receives a record on the root channel. -/
  | recv
  /-- The task at the given position runs its next statement. -/
  | task (p : List Nat)
  /-- The runtime finds the map accessed by the tasks at positions `p` and
  `q` at once, `p` writing, and stops the process (`fatal error: concurrent
  map writes`, or `concurrent map read and map write`). -/
  | fault (p q : List Nat)
  /-- The task at position `p` runs the write of line 37 while the task at
  position `q` is at a write of the map, and its key is not stored. -/
  | lose (p q : List Nat)
  deriving DecidableEq

/-- The task at position `p` below `t`. -/
def Task.sub : List Nat → Task → Option Task
  | [], t => some t
  | k :: p, .drain _ _ _ _ _ _ chs =>
      match chs[k]? with
      | some c => Task.sub p c
      | none => none
  | _ :: _, _ => none

/-- Whether the task at position `p` is at the write of line 37. -/
def Task.atWrite (t : Task) (p : List Nat) : Bool :=
  match t.sub p with
  | some (.run _ _ _ .mark) => true
  | _ => false

/-- Whether the task at position `p` is at the read of line 33. -/
def Task.atRead (t : Task) (p : List Nat) : Bool :=
  match t.sub p with
  | some (.run _ _ _ .test) => true
  | _ => false

/-- The write of line 37 by the task at position `p`, with the key dropped:
the task moves on and the map is as before. -/
def Task.loseAt : List Nat → Task → Option Task
  | [], .run url depth mux .mark => some (.run url depth mux .unlock)
  | k :: p, .drain url body urls sent resp i chs =>
      match chs[k]? with
      | none => none
      | some c =>
          match Task.loseAt p c with
          | none => none
          | some c' => some (.drain url body urls sent resp i (chs.set k c'))
  | _, _ => none

/-- One step of the program under a scheduling choice; `none` when the
chosen party cannot move.  Nothing moves once the process has been stopped. -/
def step (f : Fetcher) (a : Action) (s : State) : Option State :=
  if s.aborted then none
  else match a with
    | .recv =>
        match s.root.offer with
        | some (r, t) => some { s with root := t, out := s.out ++ [r] }
        | none => none
    | .task p =>
        match s.root.stepAt f p s.shared with
        | some (t, g) => some { s with root := t, shared := g }
        | none => none
    | .fault p q =>
        if p ≠ q ∧ s.root.atWrite p = true ∧ (s.root.atWrite q = true ∨ s.root.atRead q = true)
        then some { s with aborted := true } else none
    | .lose p q =>
        if p ≠ q ∧ s.root.atWrite q = true then
          match s.root.loseAt p with
          | some t => some { s with root := t }
          | none => none
        else none

/-- The program run under a schedule; `none` when some choice cannot move. -/
def exec (f : Fetcher) : List Action → State → Option State
  | [], s => some s
  | a :: as, s =>
      match step f a s with
      | some s' => exec f as s'
      | none => none

/-- The state in which `Crawl(url, depth, fetcher, ch, Cache{visited})` has
just been started as a goroutine, as `main` does on line 63. -/
def init (url : String) (depth : Int) (visited : List String) : State :=
  { root := .run url depth false .start, shared := ⟨visited, [], []⟩, out := [] }

/-- The task run on its own for `n` statements, for as long as it can move. -/
def Task.ownN (f : Fetcher) : Nat → Task → Shared → Option (Task × Shared)
  | 0, t, g => some (t, g)
  | n + 1, t, g =>
      match t.own f g with
      | some (t', g') => Task.ownN f n t' g'
      | none => none

/-- The step relation of the program. -/
def Step (f : Fetcher) (s s' : State) : Prop := ∃ a, step f a s = some s'

/-- States reachable from `s₀`. -/
inductive Reach (f : Fetcher) (s₀ : State) : State → Prop where
  | refl : Reach f s₀ s₀
  | tail {s s' : State} : Reach f s₀ s → Step f s s' → Reach f s₀ s'

/-- The states a run can be in when the fetch of the seed fails. -/
def FailStates (seed : String) (depth : Int) (visited : List String) (s : State) : Prop :=
  s.out = [] ∧
  ((s.shared = ⟨visited, [], []⟩ ∧
      (s.root = .run seed depth false .start ∨ s.root = .run seed depth false .lock
        ∨ s.root = .run seed depth true .test ∨ s.root = .run seed depth true .mark))
   ∨ (s.shared = ⟨visited.insert seed, [], []⟩ ∧
      (s.root = .run seed depth true .unlock ∨ s.root = .run seed depth false .fetch))
   ∨ (s.shared = ⟨visited.insert seed, [seed], [seed]⟩ ∧ s.root = .closed seed []))

/-- Program points at which the task holds its own copy of the mutex. -/
def PC.holdsLock : PC → Bool
  | .test | .unlockRet | .mark | .unlock => true
  | _ => false

/-- Structural invariant of a task and of all tasks below it.  In the loops
of lines 53-57: the children were started for the urls returned by `Fetch`,
in order; the children before the loop index are closed; the children after
it have delivered nothing; and what this task has sent, together with a
record it holds in `resp`, is its own record followed by what its children
have delivered, child after child. -/
inductive Task.WF (f : Fetcher) : Task → Prop where
  | run {url : String} {depth : Int} {mux : Bool} {pc : PC} :
      mux = pc.holdsLock → Task.WF f (.run url depth mux pc)
  | send {url : String} {depth : Int} {body : String} {urls : List String} :
      f url = some (body, urls) → Task.WF f (.send url depth false body urls)
  | spawn {url : String} {depth : Int} {body : String} {urls : List String} :
      f url = some (body, urls) → Task.WF f (.spawn url depth false body urls [⟨url, body⟩])
  | drain {url body : String} {urls : List String} {sent : List Response}
      {resp : Option Response} {i : Nat} {chs : List Task} :
      f url = some (body, urls) →
      chs.map Task.url = urls →
      sent ++ resp.toList = ⟨url, body⟩ :: (chs.map Task.delivered).flatten →
      (∀ j c, j < i → chs[j]? = some c → c.isClosed = true) →
      (∀ j c, i < j → chs[j]? = some c → c.delivered = []) →
      (∀ c ∈ chs, Task.WF f c) →
      Task.WF f (.drain url body urls sent resp i chs)
  | closed {url : String} {sent : List Response} : Task.WF f (.closed url sent)

/-- The invariant of whole states: the task tree is well formed and `main`
has received exactly what the root task has delivered. -/
def State.WF (f : Fetcher) (s : State) : Prop := s.root.WF f ∧ s.out = s.root.delivered

/-- Discovery depth.  `Disc f seed k u`: the identifier `u` is discovered at depth `k` from
`seed`, the seed being at depth 1 and each reference returned by a
successful fetch one deeper than the page that lists it. -/
inductive Disc (f : Fetcher) (seed : String) : Nat → String → Prop where
  | seed : Disc f seed 1 seed
  | ref {k : Nat} {u v body : String} {urls : List String} :
      Disc f seed k u → f u = some (body, urls) → v ∈ urls → Disc f seed (k + 1) v

/-- A record that may be emitted by `Crawl(seed, maxDepth, ...)`: its url is
discovered at a depth of at most `maxDepth` and its body is what the fetch
of the url returns. -/
def Emittable (f : Fetcher) (seed : String) (maxDepth : Int) (r : Response) : Prop :=
  (∃ k : Nat, (k : Int) ≤ maxDepth ∧ Disc f seed k r.url)
  ∧ ∃ urls, f r.url = some (r.body, urls)

/-- Depth invariant of a task and of all tasks below it: a task with
remaining depth `depth` works on a url discovered at depth
`maxDepth + 1 - depth`, and every record held in the tree is emittable. -/
inductive Task.Within (f : Fetcher) (seed : String) (maxDepth : Int) : Task → Prop where
  | run {url : String} {depth : Int} {mux : Bool} {pc : PC} {k : Nat} :
      Disc f seed k url → (k : Int) + depth = maxDepth + 1 → (pc ≠ .start → 0 < depth) →
      Task.Within f seed maxDepth (.run url depth mux pc)
  | send {url : String} {depth : Int} {mux : Bool} {body : String} {urls : List String}
      {k : Nat} :
      Disc f seed k url → (k : Int) + depth = maxDepth + 1 → 0 < depth →
      f url = some (body, urls) → Task.Within f seed maxDepth (.send url depth mux body urls)
  | spawn {url : String} {depth : Int} {mux : Bool} {body : String} {urls : List String}
      {sent : List Response} {k : Nat} :
      Disc f seed k url → (k : Int) + depth = maxDepth + 1 → 0 < depth →
      f url = some (body, urls) →
      Task.Within f seed maxDepth (.spawn url depth mux body urls sent)
  | drain {url body : String} {urls : List String} {sent : List Response}
      {resp : Option Response} {i : Nat} {chs : List Task} :
      (∀ r, resp = some r → Emittable f seed maxDepth r) →
      (∀ c ∈ chs, Task.Within f seed maxDepth c) →
      Task.Within f seed maxDepth (.drain url body urls sent resp i chs)
  | closed {url : String} {sent : List Response} :
      Task.Within f seed maxDepth (.closed url sent)

/-- The fetch graph with two paths to `C`, one through `B`. -/
def overlapGraph : fakeFetcher :=
  [("A", ⟨"a", ["B", "C"]⟩), ("B", ⟨"b", ["C"]⟩), ("C", ⟨"c", []⟩)]

/-- A schedule for `overlapGraph`, seed `A`, depth 3, in which the task for
`C` started by the root and the task for `C` started by the task for `B`
both run line 33 before either runs line 37. -/
def overlapSchedule : List Action :=
  [ -- the root claims `A`, fetches, sends its record to `main`, starts `B` and `C`
    .task [], .task [], .task [], .task [], .task [], .task [], .recv, .task [],
    -- the task for `B` claims, fetches, sends its record, which goes on to `main`
    .task [0], .task [0], .task [0], .task [0], .task [0], .task [0], .task [], .recv,
    -- the task for `B` starts its child for `C`
    .task [0],
    -- both tasks for `C` pass the depth test and lock their own mutex
    .task [1], .task [1], .task [0, 0], .task [0, 0],
    -- both run the test of line 33: `C` is not marked
    .task [1], .task [0, 0],
    -- both run the write of line 37
    .task [1], .task [0, 0],
    -- both unlock and fetch `C`
    .task [1], .task [0, 0], .task [1], .task [0, 0],
    -- the record of the deeper task goes up through `B` and the root to `main`
    .task [0], .task [], .recv, .task [0, 0], .task [0, 0], .task [0], .task [0],
    -- the root moves on to `chs[1]` and forwards the second record for `C`
    .task [], .task [], .recv, .task [1], .task [1], .task [], .task [] ]

/-- A schedule for the program as `main` starts it (seed
`https://golang.org/`, depth 4, the package variable `fetcher`), up to the
point where the two tasks for `https://golang.org/cmd/` have both run
line 33. -/
def raceSchedule : List Action :=
  [ -- the root claims and fetches the seed, sends its record, starts its two children
    .task [], .task [], .task [], .task [], .task [], .task [], .recv, .task [],
    -- the task for `pkg/` claims, fetches, hands its record to the root, starts its children
    .task [0], .task [0], .task [0], .task [0], .task [0], .task [0], .task [], .task [0],
    -- both tasks for `cmd/` pass the depth test and lock their own mutex
    .task [1], .task [1], .task [0, 1], .task [0, 1],
    -- both run the test of line 33: `cmd/` is not marked
    .task [1], .task [0, 1] ]

/-- Records on their way.  `Task.Carries u t`: in the tree of `t` the url `u` has been
marked by a task that has not yet sent its record, or a record for `u` is
held in a `resp` variable on its way up. -/
inductive Task.Carries (u : String) : Task → Prop where
  | claimed {depth : Int} {mux : Bool} {pc : PC} :
      pc = .unlock ∨ pc = .fetch → Task.Carries u (.run u depth mux pc)
  | send {depth : Int} {mux : Bool} {body : String} {urls : List String} :
      Task.Carries u (.send u depth mux body urls)
  | resp {url body : String} {urls : List String} {sent : List Response} {r : Response}
      {i : Nat} {chs : List Task} :
      r.url = u → Task.Carries u (.drain url body urls sent (some r) i chs)
  | child {url body : String} {urls : List String} {sent : List Response}
      {resp : Option Response} {i : Nat} {chs : List Task} {c : Task} :
      c ∈ chs → Task.Carries u c → Task.Carries u (.drain url body urls sent resp i chs)

/-- A child task that is settled: its url is marked, or it has depth left
and has not yet run line 37, or (when the fetch of its url succeeds) it
carries its url or has delivered a record for it. -/
def Task.Settled (f : Fetcher) (c : Task) (visited : List String) : Prop :=
  c.url ∈ visited
  ∨ (∃ v d mux pc, c = .run v d mux pc ∧ 0 < d
      ∧ (pc = .start ∨ pc = .lock ∨ pc = .test ∨ pc = .mark))
  ∨ (f c.url ≠ none → c.Carries c.url ∨ c.url ∈ c.delivered.map Response.url)

/-- Invariant of the root task of `Crawl(seed, maxDepth, ...)` started on an
empty visited map. -/
def RootInv (f : Fetcher) (seed : String) (maxDepth : Int) (s : State) : Prop :=
  match s.root with
  | .run u d _ pc =>
      u = seed ∧ d = maxDepth ∧ pc ≠ .unlockRet
      ∧ (pc = .start ∨ pc = .lock ∨ pc = .test → s.shared.visited = [])
      ∧ (pc = .unlock ∨ pc = .fetch → seed ∈ s.shared.visited)
  | .send u d _ _ _ => u = seed ∧ d = maxDepth ∧ seed ∈ s.shared.visited
  | .spawn u d _ _ _ _ => u = seed ∧ d = maxDepth ∧ seed ∈ s.shared.visited
  | .drain u _ _ _ _ _ chs =>
      u = seed ∧ seed ∈ s.shared.visited
      ∧ (2 ≤ maxDepth → ∀ c ∈ chs, c.Settled f s.shared.visited)
  | .closed _ sent =>
      seed ∈ s.shared.visited
      ∧ (2 ≤ maxDepth → ∀ b urls, f seed = some (b, urls) → ∀ v ∈ urls,
          v ∈ s.shared.visited ∨ f v = none ∨ v ∈ sent.map Response.url)

/-- The fetch graph in which `D` is at depth 3 through `C` and at depth 4
through `B` and `C`. -/
def depthGraph : fakeFetcher :=
  [("A", ⟨"a", ["B", "C"]⟩), ("B", ⟨"b", ["C"]⟩), ("C", ⟨"c", ["D"]⟩), ("D", ⟨"d", []⟩)]

/-- A schedule for `depthGraph`, seed `A`, depth 3: the task for `C` started
by the root (depth 2) runs its claim before the one started by the task for
`B` (depth 1).  No two claims overlap. -/
def depthScheduleWide : List Action :=
  [ -- the root claims `A`, fetches, sends its record to `main`, starts `B` and `C`
    .task [], .task [], .task [], .task [], .task [], .task [], .recv, .task [],
    -- the root's child for `C` (depth 2) claims `C`, fetches, and blocks in its send
    .task [1], .task [1], .task [1], .task [1], .task [1], .task [1],
    -- the task for `B` claims, fetches, sends its record, starts its child for `C`
    .task [0], .task [0], .task [0], .task [0], .task [0], .task [0], .task [], .recv,
    .task [0],
    -- the child of `B` for `C` (depth 1) finds `C` marked and returns
    .task [0, 0], .task [0, 0], .task [0, 0], .task [0, 0],
    -- the task for `B` returns; the root moves on to `chs[1]`
    .task [0], .task [0], .task [],
    -- the record of `C` goes to `main`; the task for `C` starts its child for `D`
    .task [], .recv, .task [1],
    -- the task for `D` (depth 1) claims, fetches, and its record goes up to `main`
    .task [1, 0], .task [1, 0], .task [1, 0], .task [1, 0], .task [1, 0], .task [1, 0],
    .task [1], .task [], .recv, .task [1, 0], .task [1, 0], .task [1], .task [1],
    .task [], .task [] ]

/-- A schedule for `depthGraph`, seed `A`, depth 3: the task for `C` started
by the task for `B` (depth 1) runs its claim before the one started by the
root (depth 2).  No two claims overlap. -/
def depthScheduleDeep : List Action :=
  [ -- the root claims `A`, fetches, sends its record to `main`, starts `B` and `C`
    .task [], .task [], .task [], .task [], .task [], .task [], .recv, .task [],
    -- the task for `B` claims, fetches, sends its record, starts its child for `C`
    .task [0], .task [0], .task [0], .task [0], .task [0], .task [0], .task [], .recv,
    .task [0],
    -- the child of `B` for `C` (depth 1) claims `C` and fetches
    .task [0, 0], .task [0, 0], .task [0, 0], .task [0, 0], .task [0, 0], .task [0, 0],
    -- its record goes up to `main`; it starts its child for `D` with depth 0
    .task [0], .task [], .recv, .task [0, 0],
    -- the task for `D` returns at the depth test; the tasks above it return
    .task [0, 0, 0], .task [0, 0], .task [0, 0], .task [0], .task [0], .task [],
    -- the root's child for `C` (depth 2) finds `C` marked and returns; the root returns
    .task [1], .task [1], .task [1], .task [1], .task [], .task [] ]

/-- The fetch graph `A -> [B, C]`, `B -> [A]`, `C -> []`. -/
def cycleGraph : fakeFetcher :=
  [("A", ⟨"a", ["B", "C"]⟩), ("B", ⟨"b", ["A"]⟩), ("C", ⟨"c", []⟩)]

/-- A complete schedule for `cycleGraph`, seed `A`, depth 4. -/
def cycleSchedule : List Action :=
  [ -- the root claims `A`, fetches, sends its record to `main`, starts `B` and `C`
    .task [], .task [], .task [], .task [], .task [], .task [], .recv, .task [],
    -- the task for `C` claims, fetches, and blocks in its send
    .task [1], .task [1], .task [1], .task [1], .task [1], .task [1],
    -- the task for `B` claims, fetches, sends its record, starts its child for `A`
    .task [0], .task [0], .task [0], .task [0], .task [0], .task [0], .task [], .recv,
    .task [0],
    -- the child for `A` finds `A` marked and returns; the task for `B` returns
    .task [0, 0], .task [0, 0], .task [0, 0], .task [0, 0],
    .task [0], .task [0], .task [],
    -- the record of `C` goes to `main`; the task for `C` returns; the root returns
    .task [], .recv, .task [1], .task [1], .task [], .task [] ]

/-- The state one step before the end of `cycleSchedule`: the root has
drained both children and is about to return. -/
def cycleDrained : State :=
  { root := .drain "A" "a" ["B", "C"] [⟨"A", "a"⟩, ⟨"B", "b"⟩, ⟨"C", "c"⟩] none 2
      [.closed "B" [⟨"B", "b"⟩], .closed "C" [⟨"C", "c"⟩]],
    shared := ⟨["B", "C", "A"], ["A", "C", "B"], []⟩,
    out := [⟨"A", "a"⟩, ⟨"B", "b"⟩, ⟨"C", "c"⟩] }

/-- The state at the end of `overlapSchedule`. -/
def overlapFinal : State :=
  { root := .closed "A" [⟨"A", "a"⟩, ⟨"B", "b"⟩, ⟨"C", "c"⟩, ⟨"C", "c"⟩],
    shared := ⟨["C", "B", "A"], ["A", "B", "C", "C"], []⟩,
    out := [⟨"A", "a"⟩, ⟨"B", "b"⟩, ⟨"C", "c"⟩, ⟨"C", "c"⟩] }

/-- The state at the end of `depthScheduleWide`. -/
def depthWideFinal : State :=
  { root := .closed "A" [⟨"A", "a"⟩, ⟨"B", "b"⟩, ⟨"C", "c"⟩, ⟨"D", "d"⟩],
    shared := ⟨["D", "B", "C", "A"], ["A", "C", "B", "D"], []⟩,
    out := [⟨"A", "a"⟩, ⟨"B", "b"⟩, ⟨"C", "c"⟩, ⟨"D", "d"⟩] }

/-- The state at the end of `depthScheduleDeep`. -/
def depthDeepFinal : State :=
  { root := .closed "A" [⟨"A", "a"⟩, ⟨"B", "b"⟩, ⟨"C", "c"⟩],
    shared := ⟨["C", "B", "A"], ["A", "B", "C"], []⟩,
    out := [⟨"A", "a"⟩, ⟨"B", "b"⟩, ⟨"C", "c"⟩] }

/-- A schedule for the program as `main` starts it (seed
`https://golang.org/`, depth 4, the package variable `fetcher`): the two
children of the root both reach the write of line 37, and the runtime then
stops the process. -/
def abortSchedule : List Action :=
  [ -- the root claims and fetches the seed, sends its record, starts its two children
    .task [], .task [], .task [], .task [], .task [], .task [], .recv, .task [],
    -- the task for `pkg/` passes the depth test, locks its mutex, reads the map
    .task [0], .task [0], .task [0],
    -- the task for `cmd/` does the same on its own mutex
    .task [1], .task [1], .task [1],
    -- both are at the write of line 37: the runtime stops the process
    .fault [0] [1] ]

/-- The state at the end of `abortSchedule`. -/
def abortedState : State :=
  { root := .drain "https://golang.org/" "The Go Programming Language"
      ["https://golang.org/pkg/", "https://golang.org/cmd/"]
      [⟨"https://golang.org/", "The Go Programming Language"⟩] none 0
      [.run "https://golang.org/pkg/" 3 true .mark,
       .run "https://golang.org/cmd/" 3 true .mark],
    shared := ⟨["https://golang.org/"], ["https://golang.org/"], []⟩,
    out := [⟨"https://golang.org/", "The Go Programming Language"⟩],
    aborted := true }

/-- A schedule for `cycleGraph`, seed `A`, depth 4: the tasks for `B` and
`C` both reach the write of line 37, and the runtime then stops the
process. -/
def cycleAbortSchedule : List Action :=
  [ -- the root claims `A`, fetches, sends its record to `main`, starts `B` and `C`
    .task [], .task [], .task [], .task [], .task [], .task [], .recv, .task [],
    -- the task for `B` passes the depth test, locks its mutex, reads the map
    .task [0], .task [0], .task [0],
    -- the task for `C` does the same on its own mutex
    .task [1], .task [1], .task [1],
    -- both are at the write of line 37: the runtime stops the process
    .fault [0] [1] ]

/-- The state at the end of `cycleAbortSchedule`. -/
def cycleAborted : State :=
  { root := .drain "A" "a" ["B", "C"] [⟨"A", "a"⟩] none 0
      [.run "B" 3 true .mark, .run "C" 3 true .mark],
    shared := ⟨["A"], ["A"], []⟩,
    out := [⟨"A", "a"⟩],
    aborted := true }

/-! ## Basic facts about steps -/

/-- An invariant of the step relation holds in every reachable state. -/
theorem Reach.induct {f : Fetcher} {s₀ : State} (P : State → Prop) (h0 : P s₀)
    (hstep : ∀ s a s', P s → step f a s = some s' → P s') :
    ∀ s, Reach f s₀ s → P s := by
  intro s hs
  induction hs with
  | refl => exact h0
  | tail _ hst ih =>
      obtain ⟨a, ha⟩ := hst
      exact hstep _ a _ ih ha

/-- Every schedule that runs leads to a reachable state. -/
theorem Reach.of_exec {f : Fetcher} {s₀ : State} :
    ∀ (as : List Action) (s s' : State), Reach f s₀ s → exec f as s = some s' → Reach f s₀ s' := by
  intro as
  induction as with
  | nil =>
      intro s s' hs h
      simp [exec] at h
      exact h ▸ hs
  | cons a as ih =>
      intro s s' hs h
      simp only [exec] at h
      cases hst : step f a s with
      | none => simp [hst] at h
      | some s₁ =>
          rw [hst] at h
          exact ih s₁ s' (Reach.tail hs ⟨a, hst⟩) h

/-- The four kinds of step. -/
theorem step_cases {f : Fetcher} {a : Action} {s s' : State} (h : step f a s = some s') :
    (∃ r t, s.root.offer = some (r, t) ∧ s' = { s with root := t, out := s.out ++ [r] })
    ∨ (∃ p t g, s.root.stepAt f p s.shared = some (t, g)
        ∧ s' = { s with root := t, shared := g })
    ∨ ((∃ p q, p ≠ q ∧ s.root.atWrite p = true
          ∧ (s.root.atWrite q = true ∨ s.root.atRead q = true))
        ∧ s' = { s with aborted := true })
    ∨ (∃ p q t, p ≠ q ∧ s.root.atWrite q = true ∧ s.root.loseAt p = some t
        ∧ s' = { s with root := t }) := by
  unfold step at h
  cases hab : s.aborted with
  | true => simp [hab] at h
  | false =>
      simp only [hab] at h
      cases a with
      | recv =>
          cases hof : s.root.offer with
          | none => simp [hof] at h
          | some x =>
              obtain ⟨r, t⟩ := x
              simp [hof] at h
              exact Or.inl ⟨r, t, rfl, h.symm⟩
      | task p =>
          cases hsa : s.root.stepAt f p s.shared with
          | none => simp [hsa] at h
          | some x =>
              obtain ⟨t, g⟩ := x
              simp [hsa] at h
              exact Or.inr (Or.inl ⟨p, t, g, hsa, h.symm⟩)
      | fault p q =>
          by_cases hc : p ≠ q ∧ s.root.atWrite p = true
              ∧ (s.root.atWrite q = true ∨ s.root.atRead q = true)
          · dsimp only at h
            rw [if_pos hc] at h
            simp at h
            exact Or.inr (Or.inr (Or.inl ⟨⟨p, q, hc⟩, h.symm⟩))
          · dsimp only at h
            rw [if_neg hc] at h
            simp at h
      | lose p q =>
          by_cases hc : p ≠ q ∧ s.root.atWrite q = true
          · dsimp only at h
            rw [if_pos hc] at h
            cases hl : s.root.loseAt p with
            | none => simp [hl] at h
            | some t =>
                simp [hl] at h
                exact Or.inr (Or.inr (Or.inr ⟨p, q, t, hc.1, hc.2, hl, h.symm⟩))
          · dsimp only at h
            rw [if_neg hc] at h
            simp at h

/-- A task that has no child is alone in its tree. -/
theorem Task.atWrite_alone {t : Task} (hsub : ∀ k p, t.sub (k :: p) = none) {p q : List Nat}
    (hpq : p ≠ q) (hp : t.atWrite p = true) (hq : t.atWrite q = true ∨ t.atRead q = true) :
    False := by
  cases p with
  | cons k p => simp [Task.atWrite, hsub] at hp
  | nil =>
      cases q with
      | nil => exact hpq rfl
      | cons k q => simp [Task.atWrite, Task.atRead, hsub] at hq

theorem Task.loseAt_alone {t t' : Task} (hsub : ∀ k p, t.sub (k :: p) = none)
    {p q : List Nat} (hpq : p ≠ q) (hq : t.atWrite q = true)
    (hl : Task.loseAt p t = some t') : False := by
  cases q with
  | cons k q => simp [Task.atWrite, hsub] at hq
  | nil =>
      cases p with
      | nil => exact hpq rfl
      | cons k p =>
          cases t with
          | run => simp [Task.loseAt] at hl
          | send => simp [Task.loseAt] at hl
          | spawn => simp [Task.loseAt] at hl
          | closed => simp [Task.loseAt] at hl
          | drain url body urls sent resp i chs => simp [Task.atWrite, Task.sub] at hq

/-- Once the process has been stopped nothing moves. -/
theorem step_of_aborted {f : Fetcher} {s : State} (h : s.aborted = true) (a : Action) :
    step f a s = none := by
  simp [step, h]

/-! ## The claim step (lines 32-38) -/

/-- C3. The claim step of `Crawl`, run by one task from `cache.mux.Lock()`
on: when `url` is not marked, the task reaches the call of `Fetch` after
four statements and `url` is marked; when `url` is marked, the task returns
after three statements and the shared memory is unchanged; the marking of
every other identifier is the same before and after the write of line 37. -/
theorem claim_step (f : Fetcher) (url : String) (depth : Int) (g : Shared) :
    (url ∉ g.visited →
        Task.ownN f 4 (.run url depth false .lock) g
          = some (.run url depth false .fetch, { g with visited := g.visited.insert url })
        ∧ url ∈ g.visited.insert url)
    ∧ (url ∈ g.visited →
        Task.ownN f 3 (.run url depth false .lock) g = some (.closed url [], g))
    ∧ (∀ v, v ≠ url → (v ∈ g.visited.insert url ↔ v ∈ g.visited)) := by
  refine ⟨fun h => ?_, fun h => ?_, fun v hv => ?_⟩
  · simp [Task.ownN, Task.own, h]
  · simp [Task.ownN, Task.own, h]
  · simp [List.mem_insert_iff, hv]

/-! ## Depth exhausted at the root (lines 27-30) -/

/-- C5. Started with `depth <= 0`, the root task closes its channel in its
first statement, and in every state of every run no record has been
received, `Fetch` has not been called, nothing has been printed, the visited
map is as it was at the start, and the root has no child. -/
theorem crawl_depth_exhausted (f : Fetcher) (seed : String) (depth : Int)
    (visited : List String) (hd : depth ≤ 0) :
    step f (.task []) (init seed depth visited)
        = some { root := .closed seed [], shared := ⟨visited, [], []⟩, out := [] }
    ∧ ∀ s, Reach f (init seed depth visited) s →
        s.out = [] ∧ s.shared = ⟨visited, [], []⟩
        ∧ (s.root = .run seed depth false .start ∨ s.root = .closed seed [])
        ∧ ∀ k p, s.root.sub (k :: p) = none := by
  constructor
  · simp [step, init, Task.stepAt, Task.own, hd]
  · apply Reach.induct
    · simp [init, Task.sub]
    · intro s a s' ⟨ho, hg, hr, _⟩ hst
      rename_i hsub
      rcases step_cases hst with ⟨r, t, hof, e⟩ | ⟨p, t, g, hsa, e⟩
        | ⟨⟨p, q, hpq, hp, hq⟩, e⟩ | ⟨p, q, t, hpq, hq, hl, e⟩
      · rcases hr with hr | hr <;> rw [hr] at hof <;> simp [Task.offer] at hof
      · subst e
        rcases hr with hr | hr <;> rw [hr] at hsa
        · cases p with
          | nil =>
              simp [Task.stepAt, Task.own, hd] at hsa
              obtain ⟨e1, e2⟩ := hsa
              subst e1; subst e2
              simp [ho, hg, Task.sub]
          | cons k p => simp [Task.stepAt] at hsa
        · cases p <;> simp [Task.stepAt, Task.own] at hsa
      · exact (Task.atWrite_alone hsub hpq hp hq).elim
      · exact (Task.loseAt_alone hsub hpq hq hl).elim

theorem crawl_depth_exhausted_witness :
    (-1 : Int) ≤ 0 ∧
    (step fetcher.Fetch (.task []) (init "https://golang.org/" (-1) [])
        = some { root := .closed "https://golang.org/" [], shared := ⟨[], [], []⟩, out := [] }
    ∧ ∀ s, Reach fetcher.Fetch (init "https://golang.org/" (-1) []) s →
        s.out = [] ∧ s.shared = ⟨[], [], []⟩
        ∧ (s.root = .run "https://golang.org/" (-1) false .start
            ∨ s.root = .closed "https://golang.org/" [])
        ∧ ∀ k p, s.root.sub (k :: p) = none) :=
  ⟨by decide, crawl_depth_exhausted fetcher.Fetch "https://golang.org/" (-1) [] (by decide)⟩

/-! ## A failing fetch at the root (lines 40-44) -/

theorem FailStates.step_fail {f : Fetcher} {seed : String} {depth : Int}
    {visited : List String}
    (hd : 1 ≤ depth) (hv : seed ∉ visited) (hf : f seed = none) (s : State) (a : Action)
    (s' : State) (h : FailStates seed depth visited s) (hst : step f a s = some s') :
    FailStates seed depth visited s' := by
  have hd' : ¬ depth ≤ 0 := by omega
  obtain ⟨ho, h⟩ := h
  have hsub : ∀ k p, s.root.sub (k :: p) = none := by
    intro k p
    rcases h with ⟨_, h | h | h | h⟩ | ⟨_, h | h⟩ | ⟨_, h⟩ <;> rw [h] <;> simp [Task.sub]
  rcases step_cases hst with ⟨r, t, hof, e⟩ | ⟨p, t, g, hsa, e⟩
    | ⟨⟨p, q, hpq, hp, hq⟩, e⟩ | ⟨p, q, t, hpq, hq, hl, e⟩
  · rcases h with ⟨_, h | h | h | h⟩ | ⟨_, h | h⟩ | ⟨_, h⟩ <;> rw [h] at hof <;>
      simp [Task.offer] at hof
  · subst e
    cases p with
    | cons k p =>
        rcases h with ⟨_, h | h | h | h⟩ | ⟨_, h | h⟩ | ⟨_, h⟩ <;> rw [h] at hsa <;>
          simp [Task.stepAt] at hsa
    | nil =>
        rcases h with ⟨hg, h | h | h | h⟩ | ⟨hg, h | h⟩ | ⟨hg, h⟩ <;> rw [h, hg] at hsa <;>
          simp [Task.stepAt, Task.own, hd', hv, hf] at hsa <;>
          obtain ⟨e1, e2⟩ := hsa <;> subst e1 <;> subst e2 <;> simp [FailStates, hv, ho]
  · exact (Task.atWrite_alone hsub hpq hp hq).elim
  · exact (Task.loseAt_alone hsub hpq hq hl).elim
/-- C6. When `Fetch` fails on the seed, `depth >= 1` and the seed is not
marked at the start: in every state of every run no record has been received,
the root has no child, and `Fetch` has been called at most once, on the seed;
once the root channel is closed it has been called exactly once; the root
closes its channel after six statements.  Any task whose fetch fails returns
at once, with nothing delivered and no child. -/
theorem crawl_fetch_fails (f : Fetcher) (seed : String) (depth : Int) (visited : List String)
    (hd : 1 ≤ depth) (hv : seed ∉ visited) (hf : f seed = none) :
    (∀ s, Reach f (init seed depth visited) s →
        s.out = [] ∧ (∀ k p, s.root.sub (k :: p) = none)
        ∧ (s.shared.fetched = [] ∨ s.shared.fetched = [seed])
        ∧ (s.root.isClosed = true →
            s.shared.fetched = [seed] ∧ s.shared.failed = [seed] ∧ s.root.delivered = []))
    ∧ exec f (List.replicate 6 (.task [])) (init seed depth visited)
        = some { root := .closed seed [], shared := ⟨visited.insert seed, [seed], [seed]⟩,
                 out := [] }
    ∧ (∀ url d mux g, f url = none →
        Task.own f (.run url d mux .fetch) g
          = some (.closed url [],
                  { g with fetched := g.fetched ++ [url], failed := g.failed ++ [url] })) := by
  have hd' : ¬ depth ≤ 0 := by omega
  refine ⟨?_, ?_, ?_⟩
  · intro s hs
    have h : FailStates seed depth visited s := by
      refine Reach.induct (FailStates seed depth visited) ?_ (FailStates.step_fail hd hv hf) s hs
      simp [FailStates, init]
    obtain ⟨r, g, o, ab⟩ := s
    obtain ⟨ho, h⟩ := h
    simp only at ho h
    rcases h with ⟨hg, h | h | h | h⟩ | ⟨hg, h | h⟩ | ⟨hg, h⟩ <;> subst h <;> subst hg <;>
      simp [ho, Task.sub, Task.isClosed, Task.delivered]
  · simp [exec, step, init, Task.stepAt, Task.own, hd', hv, hf, List.replicate]
  · intro url d mux g h
    simp [Task.own, h]

theorem crawl_fetch_fails_witness :
    (∀ s, Reach fetcher.Fetch (init "https://golang.org/cmd/" 4 []) s →
        s.out = [] ∧ (∀ k p, s.root.sub (k :: p) = none)
        ∧ (s.shared.fetched = [] ∨ s.shared.fetched = ["https://golang.org/cmd/"])
        ∧ (s.root.isClosed = true →
            s.shared.fetched = ["https://golang.org/cmd/"]
            ∧ s.shared.failed = ["https://golang.org/cmd/"] ∧ s.root.delivered = []))
    ∧ exec fetcher.Fetch (List.replicate 6 (.task [])) (init "https://golang.org/cmd/" 4 [])
        = some { root := .closed "https://golang.org/cmd/" [],
                 shared := ⟨[].insert "https://golang.org/cmd/", ["https://golang.org/cmd/"],
                            ["https://golang.org/cmd/"]⟩,
                 out := [] }
    ∧ (∀ url d mux g, fetcher.Fetch url = none →
        Task.own fetcher.Fetch (.run url d mux .fetch) g
          = some (.closed url [],
                  { g with fetched := g.fetched ++ [url], failed := g.failed ++ [url] })) :=
  crawl_fetch_fails fetcher.Fetch "https://golang.org/cmd/" 4 [] (by decide) (by decide)
    (by decide)

/-! ## Lists of streams -/

theorem flatten_set_append {α : Type} :
    ∀ (L : List (List α)) (i : Nat) (x e : List α), L[i]? = some x →
      (∀ j y, i < j → L[j]? = some y → y = []) →
      (L.set i (x ++ e)).flatten = L.flatten ++ e := by
  intro L
  induction L with
  | nil => intro i x e h; simp at h
  | cons a L ih =>
      intro i x e h hz
      cases i with
      | zero =>
          simp at h
          subst h
          have hL : L.flatten = [] := by
            rw [List.flatten_eq_nil_iff]
            intro y hy
            obtain ⟨n, hn⟩ := List.mem_iff_getElem?.mp hy
            exact hz (n + 1) y (by omega) (by simpa using hn)
          simp [hL]
      | succ i =>
          simp at h
          have := ih i x e h (fun j y hj hy => hz (j + 1) y (by omega) (by simpa using hy))
          simp [this]

theorem map_set_same {α β : Type} (φ : α → β) (l : List α) (k : Nat) (c c' : α)
    (h : l[k]? = some c) (he : φ c' = φ c) : (l.set k c').map φ = l.map φ := by
  apply List.ext_getElem?
  intro n
  simp only [List.getElem?_map, List.getElem?_set]
  by_cases hk : k = n
  · subst hk
    have hlt : k < l.length := by
      rcases List.getElem?_eq_some.mp h with ⟨hlt, _⟩
      exact hlt
    simp [hlt, h, he]
  · simp [hk]

/-! ## What a step leaves alone -/

theorem Task.offer_url {t t' : Task} {r : Response} (h : t.offer = some (r, t')) :
    t'.url = t.url := by
  cases t with
  | run => simp [Task.offer] at h
  | send => simp [Task.offer] at h; obtain ⟨_, h⟩ := h; subst h; rfl
  | spawn => simp [Task.offer] at h
  | drain url body urls sent resp i chs =>
      cases resp with
      | none => simp [Task.offer] at h
      | some r₀ => simp [Task.offer] at h; obtain ⟨_, h⟩ := h; subst h; rfl
  | closed => simp [Task.offer] at h

theorem Task.offer_delivered {t t' : Task} {r : Response} (h : t.offer = some (r, t')) :
    t'.delivered = t.delivered ++ [r] := by
  cases t with
  | run => simp [Task.offer] at h
  | send =>
      simp [Task.offer] at h; obtain ⟨h1, h⟩ := h; subst h; subst h1; simp [Task.delivered]
  | spawn => simp [Task.offer] at h
  | drain url body urls sent resp i chs =>
      cases resp with
      | none => simp [Task.offer] at h
      | some r₀ =>
          simp [Task.offer] at h; obtain ⟨h1, h⟩ := h; subst h; subst h1; simp [Task.delivered]
  | closed => simp [Task.offer] at h

/-- What `Task.own` does in the loops of lines 53-57 when no record is held. -/
theorem Task.own_drain_none {f : Fetcher} {url body : String} {urls : List String}
    {sent : List Response} {i : Nat} {chs : List Task} {g : Shared} {t' : Task} {g' : Shared}
    (h : Task.own f (.drain url body urls sent none i chs) g = some (t', g')) :
    g' = g ∧
    ((chs[i]? = none ∧ t' = .closed url sent)
     ∨ (∃ c, chs[i]? = some c ∧ c.isClosed = true
          ∧ t' = .drain url body urls sent none (i + 1) chs)
     ∨ (∃ c r c', chs[i]? = some c ∧ c.isClosed = false ∧ c.offer = some (r, c')
          ∧ t' = .drain url body urls sent (some r) i (chs.set i c'))) := by
  simp only [Task.own] at h
  cases hc : chs[i]? with
  | none =>
      rw [hc] at h
      simp at h
      simp [h.1, h.2]
  | some c =>
      rw [hc] at h
      simp only at h
      by_cases hcl : c.isClosed = true
      · simp [hcl] at h
        refine ⟨h.2.symm, Or.inr (Or.inl ⟨c, rfl, hcl, h.1.symm⟩)⟩
      · simp [hcl] at h
        cases ho : c.offer with
        | none => simp [ho] at h
        | some rc =>
            obtain ⟨r, c'⟩ := rc
            simp [ho] at h
            refine ⟨h.2.symm, Or.inr (Or.inr ⟨c, r, c', rfl, by simpa using hcl, ho, h.1.symm⟩)⟩

/-- What `Task.stepAt` does below the top task. -/
theorem Task.stepAt_cons {f : Fetcher} {k : Nat} {p : List Nat} {t : Task} {g : Shared}
    {t' : Task} {g' : Shared} (h : Task.stepAt f (k :: p) t g = some (t', g')) :
    ∃ url body urls sent resp i chs c c',
      t = .drain url body urls sent resp i chs ∧ chs[k]? = some c
      ∧ Task.stepAt f p c g = some (c', g')
      ∧ t' = .drain url body urls sent resp i (chs.set k c') := by
  cases t with
  | run => simp [Task.stepAt] at h
  | send => simp [Task.stepAt] at h
  | spawn => simp [Task.stepAt] at h
  | closed => simp [Task.stepAt] at h
  | drain url body urls sent resp i chs =>
      simp only [Task.stepAt] at h
      cases hc : chs[k]? with
      | none => simp [hc] at h
      | some c =>
          rw [hc] at h
          simp only at h
          cases hs : Task.stepAt f p c g with
          | none => simp [hs] at h
          | some cg =>
              obtain ⟨c', g''⟩ := cg
              simp [hs] at h
              obtain ⟨h1, h2⟩ := h
              subst h2
              exact ⟨url, body, urls, sent, resp, i, chs, c, c', rfl, hc, hs, h1.symm⟩

theorem Task.own_url_delivered {f : Fetcher} {t t' : Task} {g g' : Shared}
    (h : Task.own f t g = some (t', g')) :
    t'.url = t.url ∧ t'.delivered = t.delivered := by
  cases t with
  | run url depth mux pc =>
      cases pc <;> simp only [Task.own] at h <;> (try split at h) <;> simp at h <;>
        obtain ⟨h1, _⟩ := h <;> subst h1 <;> simp [Task.url, Task.delivered]
  | send => simp [Task.own] at h
  | spawn url depth mux body urls sent =>
      simp [Task.own] at h
      obtain ⟨h1, _⟩ := h
      subst h1
      simp [Task.url, Task.delivered]
  | drain url body urls sent resp i chs =>
      cases resp with
      | some r => simp [Task.own] at h
      | none =>
          obtain ⟨_, ⟨_, e⟩ | ⟨c, _, _, e⟩ | ⟨c, r, c', _, _, _, e⟩⟩ := Task.own_drain_none h <;>
            subst e <;> simp [Task.url, Task.delivered]
  | closed => simp [Task.own] at h

theorem Task.stepAt_url_delivered {f : Fetcher} :
    ∀ (p : List Nat) (t t' : Task) (g g' : Shared),
      Task.stepAt f p t g = some (t', g') → t'.url = t.url ∧ t'.delivered = t.delivered := by
  intro p
  cases p with
  | nil => intro t t' g g' h; exact Task.own_url_delivered (by simpa [Task.stepAt] using h)
  | cons k p =>
      intro t t' g g' h
      obtain ⟨url, body, urls, sent, resp, i, chs, c, c', ht, _, _, ht'⟩ := Task.stepAt_cons h
      subst ht; subst ht'
      simp [Task.url, Task.delivered]

theorem Task.stepAt_of_closed {f : Fetcher} (p : List Nat) {t : Task} (g : Shared)
    (h : t.isClosed = true) : Task.stepAt f p t g = none := by
  cases t with
  | closed url sent => cases p <;> simp [Task.stepAt, Task.own]
  | run => simp [Task.isClosed] at h
  | send => simp [Task.isClosed] at h
  | spawn => simp [Task.isClosed] at h
  | drain => simp [Task.isClosed] at h

/-- The shared memory only grows: marks are never removed. -/
theorem Task.own_visited {f : Fetcher} {t t' : Task} {g g' : Shared}
    (h : Task.own f t g = some (t', g')) : ∀ u, u ∈ g.visited → u ∈ g'.visited := by
  intro u hu
  cases t with
  | run url depth mux pc =>
      cases pc <;> simp only [Task.own] at h <;> (try split at h) <;> simp at h <;>
        obtain ⟨_, h2⟩ := h <;> subst h2 <;> simp [hu, List.mem_insert_iff]
  | send => simp [Task.own] at h
  | spawn url depth mux body urls sent =>
      simp [Task.own] at h
      obtain ⟨_, h2⟩ := h
      subst h2
      exact hu
  | drain url body urls sent resp i chs =>
      cases resp with
      | some r => simp [Task.own] at h
      | none =>
          obtain ⟨hg, _⟩ := Task.own_drain_none h
          subst hg
          exact hu
  | closed => simp [Task.own] at h

theorem Task.stepAt_visited {f : Fetcher} :
    ∀ (p : List Nat) (t t' : Task) (g g' : Shared),
      Task.stepAt f p t g = some (t', g') → ∀ u, u ∈ g.visited → u ∈ g'.visited := by
  intro p
  induction p with
  | nil => intro t t' g g' h; exact Task.own_visited (by simpa [Task.stepAt] using h)
  | cons k p ih =>
      intro t t' g g' h
      obtain ⟨url, body, urls, sent, resp, i, chs, c, c', _, _, hs, _⟩ := Task.stepAt_cons h
      exact ih c c' g g' hs

/-! ## The structural invariant -/

theorem Task.WF.offer_wf {f : Fetcher} {t t' : Task} {r : Response} (hw : Task.WF f t)
    (h : t.offer = some (r, t')) : Task.WF f t' := by
  cases hw with
  | run => simp [Task.offer] at h
  | send hf =>
      simp [Task.offer] at h
      obtain ⟨_, h⟩ := h
      subst h
      exact .spawn hf
  | spawn => simp [Task.offer] at h
  | closed => simp [Task.offer] at h
  | @drain url body urls sent resp i chs hf hu he hc hd hch =>
      cases resp with
      | none => simp [Task.offer] at h
      | some r₀ =>
          simp [Task.offer] at h
          obtain ⟨h1, h⟩ := h
          subst h; subst h1
          exact .drain hf hu (by simpa using he) hc hd hch

theorem Task.WF.own_wf {f : Fetcher} {t t' : Task} {g g' : Shared} (hw : Task.WF f t)
    (h : Task.own f t g = some (t', g')) : Task.WF f t' := by
  cases hw with
  | @run url depth mux pc hm =>
      cases pc <;> simp only [Task.own] at h <;> (try split at h) <;>
        simp [PC.holdsLock] at hm <;> subst hm <;> simp at h <;>
        obtain ⟨h1, _⟩ := h <;> subst h1 <;>
        first
          | exact .closed
          | exact .run rfl
          | (apply Task.WF.send; assumption)
  | send => simp [Task.own] at h
  | @spawn url depth body urls hf =>
      simp [Task.own] at h
      obtain ⟨h1, _⟩ := h
      subst h1
      refine .drain hf ?_ ?_ ?_ ?_ ?_
      · simp [Function.comp_def, Task.url]
      · simp [Function.comp_def, Task.delivered]
      · intro j c hj; omega
      · intro j c _ hc
        rw [List.getElem?_map] at hc
        cases hu : urls[j]? with
        | none => simp [hu] at hc
        | some u => simp [hu] at hc; subst hc; rfl
      · intro c hc
        simp at hc
        obtain ⟨u, _, hu⟩ := hc
        subst hu
        exact .run rfl
  | closed => simp [Task.own] at h
  | @drain url body urls sent resp i chs hf hu he hc hd hch =>
      cases resp with
      | some r => simp [Task.own] at h
      | none =>
          obtain ⟨_, ⟨_, h⟩ | ⟨c, hci, hcl, h⟩ | ⟨c, r, c', hci, hcl, ho, h⟩⟩ :=
            Task.own_drain_none h <;> subst h
          · exact .closed
          · refine .drain hf hu he ?_ ?_ hch
            · intro j d hj hjd
              by_cases hji : j = i
              · subst hji
                rw [hci] at hjd
                simp at hjd
                subst hjd
                exact hcl
              · exact hc j d (by omega) hjd
            · intro j d hj hjd
              exact hd j d (by omega) hjd
          · have hlt : i < chs.length := (List.getElem?_eq_some.mp hci).1
            refine .drain hf ?_ ?_ ?_ ?_ ?_
            · rw [map_set_same Task.url chs i c c' hci (Task.offer_url ho)]
              exact hu
            · rw [List.map_set, Task.offer_delivered ho]
              rw [flatten_set_append (chs.map Task.delivered) i c.delivered [r]
                (by simp [List.getElem?_map, hci])]
              · simp at he
                simp [he]
              · intro j y hj hy
                rw [List.getElem?_map] at hy
                cases hcj : chs[j]? with
                | none => simp [hcj] at hy
                | some d =>
                    simp [hcj] at hy
                    subst hy
                    exact hd j d hj hcj
            · intro j d hj hjd
              rw [List.getElem?_set_ne (by omega)] at hjd
              exact hc j d hj hjd
            · intro j d hj hjd
              rw [List.getElem?_set_ne (by omega)] at hjd
              exact hd j d hj hjd
            · intro d hdm
              rcases List.mem_or_eq_of_mem_set hdm with hdm | hdm
              · exact hch d hdm
              · subst hdm
                exact (hch c (List.mem_iff_getElem?.mpr ⟨i, hci⟩)).offer_wf ho

theorem Task.WF.stepAt_wf {f : Fetcher} :
    ∀ (p : List Nat) (t t' : Task) (g g' : Shared),
      Task.WF f t → Task.stepAt f p t g = some (t', g') → Task.WF f t' := by
  intro p
  induction p with
  | nil => intro t t' g g' hw h; exact hw.own_wf (by simpa [Task.stepAt] using h)
  | cons k p ih =>
      intro t t' g g' hw h
      obtain ⟨url, body, urls, sent, resp, i, chs, c, c', ht, hck, hs, ht'⟩ := Task.stepAt_cons h
      subst ht; subst ht'
      cases hw with
      | drain hf hu he hc hd hch =>
          obtain ⟨hurl, hdel⟩ := Task.stepAt_url_delivered p c c' g g' hs
          refine .drain hf ?_ ?_ ?_ ?_ ?_
          · rw [map_set_same Task.url chs k c c' hck hurl]
            exact hu
          · rw [map_set_same Task.delivered chs k c c' hck hdel]
            exact he
          · intro j d hj hjd
            by_cases hjk : k = j
            · subst hjk
              have hcl := hc k c hj hck
              rw [Task.stepAt_of_closed p g hcl] at hs
              simp at hs
            · rw [List.getElem?_set_ne hjk] at hjd
              exact hc j d hj hjd
          · intro j d hj hjd
            by_cases hjk : k = j
            · subst hjk
              have hlt : k < chs.length := (List.getElem?_eq_some.mp hck).1
              rw [List.getElem?_set_self hlt] at hjd
              simp at hjd
              subst hjd
              rw [hdel]
              exact hd k c hj hck
            · rw [List.getElem?_set_ne hjk] at hjd
              exact hd j d hj hjd
          · intro d hdm
            rcases List.mem_or_eq_of_mem_set hdm with hdm | hdm
            · exact hch d hdm
            · subst hdm
              exact ih c d g g' (hch c (List.mem_iff_getElem?.mpr ⟨k, hck⟩)) hs

/-! ## Writes that leave no key -/

theorem Task.loseAt_nil {t t' : Task} (h : Task.loseAt [] t = some t') :
    ∃ url depth mux, t = .run url depth mux .mark ∧ t' = .run url depth mux .unlock := by
  cases t with
  | run url depth mux pc =>
      cases pc <;> simp [Task.loseAt] at h
      exact ⟨url, depth, mux, rfl, h.symm⟩
  | send => simp [Task.loseAt] at h
  | spawn => simp [Task.loseAt] at h
  | drain => simp [Task.loseAt] at h
  | closed => simp [Task.loseAt] at h

theorem Task.loseAt_cons {k : Nat} {p : List Nat} {t t' : Task}
    (h : Task.loseAt (k :: p) t = some t') :
    ∃ url body urls sent resp i chs c c',
      t = .drain url body urls sent resp i chs ∧ chs[k]? = some c
      ∧ Task.loseAt p c = some c'
      ∧ t' = .drain url body urls sent resp i (chs.set k c') := by
  cases t with
  | run => simp [Task.loseAt] at h
  | send => simp [Task.loseAt] at h
  | spawn => simp [Task.loseAt] at h
  | closed => simp [Task.loseAt] at h
  | drain url body urls sent resp i chs =>
      simp only [Task.loseAt] at h
      cases hc : chs[k]? with
      | none => simp [hc] at h
      | some c =>
          rw [hc] at h
          simp only at h
          cases hs : Task.loseAt p c with
          | none => simp [hs] at h
          | some c' =>
              simp [hs] at h
              exact ⟨url, body, urls, sent, resp, i, chs, c, c', rfl, hc, hs, h.symm⟩

theorem Task.loseAt_url_delivered :
    ∀ (p : List Nat) (t t' : Task), Task.loseAt p t = some t' →
      t'.url = t.url ∧ t'.delivered = t.delivered := by
  intro p
  cases p with
  | nil =>
      intro t t' h
      obtain ⟨url, depth, mux, e, e'⟩ := Task.loseAt_nil h
      subst e; subst e'
      simp [Task.url, Task.delivered]
  | cons k p =>
      intro t t' h
      obtain ⟨url, body, urls, sent, resp, i, chs, c, c', ht, _, _, ht'⟩ := Task.loseAt_cons h
      subst ht; subst ht'
      simp [Task.url, Task.delivered]

theorem Task.loseAt_of_closed (p : List Nat) {t : Task} (h : t.isClosed = true) :
    Task.loseAt p t = none := by
  cases t with
  | closed url sent => cases p <;> simp [Task.loseAt]
  | run => simp [Task.isClosed] at h
  | send => simp [Task.isClosed] at h
  | spawn => simp [Task.isClosed] at h
  | drain => simp [Task.isClosed] at h

theorem Task.WF.loseAt_wf {f : Fetcher} :
    ∀ (p : List Nat) (t t' : Task), Task.WF f t → Task.loseAt p t = some t' →
      Task.WF f t' := by
  intro p
  induction p with
  | nil =>
      intro t t' hw h
      obtain ⟨url, depth, mux, e, e'⟩ := Task.loseAt_nil h
      subst e; subst e'
      cases hw with
      | run hm => exact .run (by simpa [PC.holdsLock] using hm)
  | cons k p ih =>
      intro t t' hw h
      obtain ⟨url, body, urls, sent, resp, i, chs, c, c', ht, hck, hs, ht'⟩ := Task.loseAt_cons h
      subst ht; subst ht'
      cases hw with
      | drain hf hu he hc hd hch =>
          obtain ⟨hurl, hdel⟩ := Task.loseAt_url_delivered p c c' hs
          refine .drain hf ?_ ?_ ?_ ?_ ?_
          · rw [map_set_same Task.url chs k c c' hck hurl]
            exact hu
          · rw [map_set_same Task.delivered chs k c c' hck hdel]
            exact he
          · intro j d hj hjd
            by_cases hjk : k = j
            · subst hjk
              have hcl := hc k c hj hck
              rw [Task.loseAt_of_closed p hcl] at hs
              simp at hs
            · rw [List.getElem?_set_ne hjk] at hjd
              exact hc j d hj hjd
          · intro j d hj hjd
            by_cases hjk : k = j
            · subst hjk
              have hlt : k < chs.length := (List.getElem?_eq_some.mp hck).1
              rw [List.getElem?_set_self hlt] at hjd
              simp at hjd
              subst hjd
              rw [hdel]
              exact hd k c hj hck
            · rw [List.getElem?_set_ne hjk] at hjd
              exact hd j d hj hjd
          · intro d hdm
            rcases List.mem_or_eq_of_mem_set hdm with hdm | hdm
            · exact hch d hdm
            · subst hdm
              exact ih c d (hch c (List.mem_iff_getElem?.mpr ⟨k, hck⟩)) hs

/-! ## Reachable states are well formed -/

theorem Task.WF.sub_wf {f : Fetcher} :
    ∀ (p : List Nat) (t t' : Task), Task.WF f t → Task.sub p t = some t' → Task.WF f t' := by
  intro p
  induction p with
  | nil => intro t t' hw h; simp [Task.sub] at h; exact h ▸ hw
  | cons k p ih =>
      intro t t' hw h
      cases hw with
      | run => simp [Task.sub] at h
      | send => simp [Task.sub] at h
      | spawn => simp [Task.sub] at h
      | closed => simp [Task.sub] at h
      | @drain url body urls sent resp i chs hf hu he hc hd hch =>
          simp only [Task.sub] at h
          cases hck : chs[k]? with
          | none => simp [hck] at h
          | some c =>
              rw [hck] at h
              exact ih c t' (hch c (List.mem_iff_getElem?.mpr ⟨k, hck⟩)) h

theorem State.WF.init_wf (f : Fetcher) (seed : String) (depth : Int) (visited : List String) :
    State.WF f (Crawler.init seed depth visited) :=
  ⟨.run rfl, rfl⟩

theorem State.WF.step_wf {f : Fetcher} {a : Action} {s s' : State} (hw : State.WF f s)
    (h : Crawler.step f a s = some s') : State.WF f s' := by
  obtain ⟨hr, ho⟩ := hw
  rcases step_cases h with ⟨r, t, hof, e⟩ | ⟨p, t, g, hsa, e⟩ | ⟨_, e⟩
    | ⟨p, q, t, _, _, hl, e⟩ <;> subst e
  · exact ⟨hr.offer_wf hof, by simp [ho, Task.offer_delivered hof]⟩
  · exact ⟨hr.stepAt_wf p _ _ _ _ hsa, by simp [ho, (Task.stepAt_url_delivered p _ _ _ _ hsa).2]⟩
  · exact ⟨hr, ho⟩
  · exact ⟨hr.loseAt_wf p _ _ hl, by simp [ho, (Task.loseAt_url_delivered p _ _ hl).2]⟩

theorem State.WF.reach_wf {f : Fetcher} {seed : String} {depth : Int} {visited : List String}
    {s : State} (h : Reach f (Crawler.init seed depth visited) s) : State.WF f s :=
  Reach.induct (State.WF f) (State.WF.init_wf f seed depth visited)
    (fun _ _ _ hw hst => hw.step_wf hst) s h

/-- The four returns of `Crawl`: the statement that closes a task's channel. -/
theorem Task.WF.own_closes {f : Fetcher} {t t' : Task} {g g' : Shared} (hw : Task.WF f t)
    (h : Task.own f t g = some (t', g')) (hc : t'.isClosed = true) :
    (∃ u d m, t = .run u d m .start ∧ d ≤ 0 ∧ t' = .closed u [])
    ∨ (∃ u d m, t = .run u d m .unlockRet ∧ t' = .closed u [])
    ∨ (∃ u d m, t = .run u d m .fetch ∧ f u = none ∧ t' = .closed u [])
    ∨ (∃ u b us sent i chs, t = .drain u b us sent none i chs ∧ t' = .closed u sent
        ∧ sent = ⟨u, b⟩ :: (chs.map Task.delivered).flatten
        ∧ ∀ c ∈ chs, c.isClosed = true) := by
  cases hw with
  | @run url depth mux pc hm =>
      cases pc
      case start =>
        simp only [Task.own] at h
        split at h
        · simp at h
          exact Or.inl ⟨url, depth, mux, rfl, by assumption, h.1.symm⟩
        · simp at h
          rw [← h.1] at hc
          simp [Task.isClosed] at hc
      case lock =>
        cases mux <;> simp [Task.own] at h
        rw [← h.1] at hc
        simp [Task.isClosed] at hc
      case test =>
        simp only [Task.own] at h
        split at h <;> simp at h <;> rw [← h.1] at hc <;> simp [Task.isClosed] at hc
      case unlockRet =>
        simp [Task.own] at h
        exact Or.inr (Or.inl ⟨url, depth, mux, rfl, h.1.symm⟩)
      case mark =>
        simp [Task.own] at h
        rw [← h.1] at hc
        simp [Task.isClosed] at hc
      case unlock =>
        simp [Task.own] at h
        rw [← h.1] at hc
        simp [Task.isClosed] at hc
      case fetch =>
        simp only [Task.own] at h
        cases hf : f url with
        | none =>
            simp [hf] at h
            exact Or.inr (Or.inr (Or.inl ⟨url, depth, mux, rfl, hf, h.1.symm⟩))
        | some x =>
            simp [hf] at h
            rw [← h.1] at hc
            simp [Task.isClosed] at hc
  | send => simp [Task.own] at h
  | spawn hf =>
      simp [Task.own] at h
      rw [← h.1] at hc
      simp [Task.isClosed] at hc
  | closed => simp [Task.own] at h
  | @drain url body urls sent resp i chs hf hu he hcl hd hch =>
      cases resp with
      | some r => simp [Task.own] at h
      | none =>
          obtain ⟨_, ⟨hci, e⟩ | ⟨c, _, _, e⟩ | ⟨c, r, c', _, _, _, e⟩⟩ := Task.own_drain_none h
          · refine Or.inr (Or.inr (Or.inr ⟨url, body, urls, sent, i, chs, rfl, e, ?_, ?_⟩))
            · simpa using he
            · intro c hcm
              obtain ⟨j, hj⟩ := List.mem_iff_getElem?.mp hcm
              have hlt : j < chs.length := (List.getElem?_eq_some.mp hj).1
              have hle : chs.length ≤ i := by
                by_contra hlt'
                have : i < chs.length := by omega
                simp [List.getElem?_eq_getElem this] at hci
              exact hcl j c (by omega) hj
          · subst e; simp [Task.isClosed] at hc
          · subst e; simp [Task.isClosed] at hc

/-! ## The runtime stops the process -/

/-- C4 (evaluation of the code). In the program as `main` starts it, under
`abortSchedule` the two children of the root are both at the write of
line 37 on the one map, each under its own copy of the mutex, and the
runtime stops the process: the root channel is not closed, neither child has
returned, and no further step is possible. -/
theorem crawl_aborts :
    exec fetcher.Fetch abortSchedule (init "https://golang.org/" 4 []) = some abortedState
    ∧ abortedState.aborted = true ∧ abortedState.root.isClosed = false
    ∧ abortedState.root.sub [0] = some (.run "https://golang.org/pkg/" 3 true .mark)
    ∧ abortedState.root.sub [1] = some (.run "https://golang.org/cmd/" 3 true .mark)
    ∧ ∀ a, step fetcher.Fetch a abortedState = none :=
  ⟨rfl, rfl, rfl, rfl, rfl, fun a => step_of_aborted rfl a⟩

/-- C7 (evaluation of the code). For the fetch graph `A -> [B, C]`,
`B -> [A]`, `C -> []`, seed `A`, depth 4 and an empty visited map, under
`cycleAbortSchedule` the tasks for `B` and `C` are both at the write of
line 37 and the runtime stops the process: `main` has received the record
of `A` alone, the root channel is not closed, and no further step is
possible. -/
theorem cycle_aborts :
    exec cycleGraph.Fetch cycleAbortSchedule (init "A" 4 []) = some cycleAborted
    ∧ cycleAborted.aborted = true ∧ cycleAborted.root.isClosed = false
    ∧ cycleAborted.out.map Response.url = ["A"]
    ∧ cycleAborted.shared.fetched = ["A"]
    ∧ ∀ a, step cycleGraph.Fetch a cycleAborted = none :=
  ⟨rfl, rfl, rfl, rfl, rfl, fun a => step_of_aborted rfl a⟩

/-! ## The stream of a task -/

/-- C9. In every reachable state, a task in the loops of lines 53-57 had a
successful fetch returning `(body, urls)`; its children are the tasks
started for `urls`, in that order; what it has sent, followed by the record
it holds, is its own record `(url, body)` followed by what its children have
delivered, child after child; and when it closes its channel every child is
closed and the stream it has delivered is its own record followed by the
complete streams of its children in that order. -/
theorem task_stream (f : Fetcher) (seed : String) (depth : Int) (visited : List String)
    (s : State) (hs : Reach f (init seed depth visited) s) (p : List Nat)
    (url body : String) (urls : List String) (sent : List Response) (resp : Option Response)
    (i : Nat) (chs : List Task)
    (hp : s.root.sub p = some (.drain url body urls sent resp i chs)) :
    f url = some (body, urls) ∧ chs.map Task.url = urls
    ∧ sent ++ resp.toList = ⟨url, body⟩ :: (chs.map Task.delivered).flatten
    ∧ ∀ t' g', Task.own f (.drain url body urls sent resp i chs) s.shared = some (t', g') →
        t'.isClosed = true →
        t' = .closed url sent ∧ sent = ⟨url, body⟩ :: (chs.map Task.delivered).flatten
        ∧ ∀ c ∈ chs, c.isClosed = true := by
  have hw : Task.WF f (.drain url body urls sent resp i chs) :=
    (State.WF.reach_wf hs).1.sub_wf p _ _ hp
  refine ⟨?_, ?_, ?_, ?_⟩
  · cases hw with
    | drain hf _ _ _ _ _ => exact hf
  · cases hw with
    | drain _ hu _ _ _ _ => exact hu
  · cases hw with
    | drain _ _ he _ _ _ => exact he
  · intro t' g' h hc
    rcases hw.own_closes h hc with ⟨u, d, m, e, _⟩ | ⟨u, d, m, e, _⟩ | ⟨u, d, m, e, _⟩
      | ⟨u, b, us, sent', i', chs', e, e', he, hcl⟩
    · cases e
    · cases e
    · cases e
    · cases e
      exact ⟨e', he, hcl⟩

/-! ## The copied mutex -/

/-- C10 (evaluation of the code). In the program as `main` starts it, after
`raceSchedule` the task at position `[1]` and the task at position `[0, 1]`,
both for `https://golang.org/cmd/`, each hold their own locked copy of the
mutex and have both passed the test of line 33; run on, both call `Fetch`
for that url. -/
theorem claim_passed_twice :
    (exec fetcher.Fetch raceSchedule (init "https://golang.org/" 4 [])).map
        (fun s => (s.root.sub [1], s.root.sub [0, 1], s.shared.visited))
      = some (some (.run "https://golang.org/cmd/" 3 true .mark),
              some (.run "https://golang.org/cmd/" 2 true .mark),
              ["https://golang.org/pkg/", "https://golang.org/"])
    ∧ (exec fetcher.Fetch
          (raceSchedule ++ [.task [1], .task [0, 1], .task [1], .task [0, 1],
                            .task [1], .task [0, 1]])
          (init "https://golang.org/" 4 [])).map (fun s => s.shared.fetched)
      = some ["https://golang.org/", "https://golang.org/pkg/",
              "https://golang.org/cmd/", "https://golang.org/cmd/"] :=
  ⟨rfl, rfl⟩

/-- C1 (evaluation of the code). For `overlapGraph`, seed `A`, depth 3 and an
empty visited map, the run under `overlapSchedule` closes the root channel
after delivering the record of `C` twice. -/
theorem duplicate_record :
    (exec overlapGraph.Fetch overlapSchedule (init "A" 3 [])).map
        (fun s => (s.root.isClosed, s.out.map Response.url, s.shared.fetched))
      = some (true, ["A", "B", "C", "C"], ["A", "B", "C", "C"]) := by
  decide

/-! ## The depth bound -/

theorem Disc.pos {f : Fetcher} {seed : String} {k : Nat} {u : String}
    (h : Disc f seed k u) : 1 ≤ k := by
  cases h <;> omega

theorem Task.Within.offer_within {f : Fetcher} {seed : String} {maxDepth : Int} {t t' : Task}
    {r : Response} (hw : Task.Within f seed maxDepth t) (h : t.offer = some (r, t')) :
    Emittable f seed maxDepth r ∧ Task.Within f seed maxDepth t' := by
  cases hw with
  | run => simp [Task.offer] at h
  | @send url depth mux body urls k hk hkd hd hf =>
      simp [Task.offer] at h
      obtain ⟨h1, h2⟩ := h
      subst h1; subst h2
      exact ⟨⟨⟨k, by omega, hk⟩, urls, hf⟩, .spawn hk hkd hd hf⟩
  | spawn => simp [Task.offer] at h
  | closed => simp [Task.offer] at h
  | @drain url body urls sent resp i chs hr hch =>
      cases resp with
      | none => simp [Task.offer] at h
      | some r₀ =>
          simp [Task.offer] at h
          obtain ⟨h1, h2⟩ := h
          subst h1; subst h2
          exact ⟨hr _ rfl, .drain (by simp) hch⟩

theorem Task.Within.own_within {f : Fetcher} {seed : String} {maxDepth : Int} {t t' : Task}
    {g g' : Shared} (hw : Task.Within f seed maxDepth t)
    (h : Task.own f t g = some (t', g')) : Task.Within f seed maxDepth t' := by
  cases hw with
  | @run url depth mux pc k hk hkd hd =>
      cases pc
      case start =>
        simp only [Task.own] at h
        split at h <;> simp at h <;> obtain ⟨h1, _⟩ := h <;> subst h1
        · exact .closed
        · exact .run hk hkd (fun _ => by omega)
      case lock =>
        cases mux <;> simp [Task.own] at h
        obtain ⟨h1, _⟩ := h
        subst h1
        exact .run hk hkd (fun _ => hd (by simp))
      case test =>
        simp only [Task.own] at h
        split at h <;> simp at h <;> obtain ⟨h1, _⟩ := h <;> subst h1 <;>
          exact .run hk hkd (fun _ => hd (by simp))
      case unlockRet =>
        simp [Task.own] at h
        obtain ⟨h1, _⟩ := h
        subst h1
        exact .closed
      case mark =>
        simp [Task.own] at h
        obtain ⟨h1, _⟩ := h
        subst h1
        exact .run hk hkd (fun _ => hd (by simp))
      case unlock =>
        simp [Task.own] at h
        obtain ⟨h1, _⟩ := h
        subst h1
        exact .run hk hkd (fun _ => hd (by simp))
      case fetch =>
        simp only [Task.own] at h
        cases hf : f url with
        | none =>
            simp [hf] at h
            obtain ⟨h1, _⟩ := h
            subst h1
            exact .closed
        | some x =>
            obtain ⟨body, urls⟩ := x
            simp [hf] at h
            obtain ⟨h1, _⟩ := h
            subst h1
            exact .send hk hkd (hd (by simp)) hf
  | send => simp [Task.own] at h
  | @spawn url depth mux body urls sent k hk hkd hd hf =>
      simp [Task.own] at h
      obtain ⟨h1, _⟩ := h
      subst h1
      refine .drain (by simp) ?_
      intro c hc
      simp at hc
      obtain ⟨v, hv, e⟩ := hc
      subst e
      exact .run (Disc.ref hk hf hv) (by push_cast; omega) (fun h => absurd rfl h)
  | closed => simp [Task.own] at h
  | @drain url body urls sent resp i chs hr hch =>
      cases resp with
      | some r => simp [Task.own] at h
      | none =>
          obtain ⟨_, ⟨_, e⟩ | ⟨c, _, _, e⟩ | ⟨c, r, c', hci, _, ho, e⟩⟩ := Task.own_drain_none h <;>
            subst e
          · exact .closed
          · exact .drain hr hch
          · obtain ⟨hgood, hc'⟩ := (hch c (List.mem_iff_getElem?.mpr ⟨i, hci⟩)).offer_within ho
            refine .drain ?_ ?_
            · intro r' hr'
              simp at hr'
              subst hr'
              exact hgood
            · intro d hdm
              rcases List.mem_or_eq_of_mem_set hdm with hdm | hdm
              · exact hch d hdm
              · subst hdm
                exact hc'

theorem Task.Within.stepAt_within {f : Fetcher} {seed : String} {maxDepth : Int} :
    ∀ (p : List Nat) (t t' : Task) (g g' : Shared),
      Task.Within f seed maxDepth t → Task.stepAt f p t g = some (t', g') →
      Task.Within f seed maxDepth t' := by
  intro p
  induction p with
  | nil => intro t t' g g' hw h; exact hw.own_within (by simpa [Task.stepAt] using h)
  | cons k p ih =>
      intro t t' g g' hw h
      obtain ⟨url, body, urls, sent, resp, i, chs, c, c', ht, hck, hs, ht'⟩ := Task.stepAt_cons h
      subst ht; subst ht'
      cases hw with
      | drain hr hch =>
          refine .drain hr ?_
          intro d hdm
          rcases List.mem_or_eq_of_mem_set hdm with hdm | hdm
          · exact hch d hdm
          · subst hdm
            exact ih c d g g' (hch c (List.mem_iff_getElem?.mpr ⟨k, hck⟩)) hs

theorem Task.Within.loseAt_within {f : Fetcher} {seed : String} {maxDepth : Int} :
    ∀ (p : List Nat) (t t' : Task), Task.Within f seed maxDepth t →
      Task.loseAt p t = some t' → Task.Within f seed maxDepth t' := by
  intro p
  induction p with
  | nil =>
      intro t t' hw h
      obtain ⟨url, depth, mux, e, e'⟩ := Task.loseAt_nil h
      subst e; subst e'
      cases hw with
      | run hk hkd hd => exact .run hk hkd (fun _ => hd (by simp))
  | cons k p ih =>
      intro t t' hw h
      obtain ⟨url, body, urls, sent, resp, i, chs, c, c', ht, hck, hs, ht'⟩ := Task.loseAt_cons h
      subst ht; subst ht'
      cases hw with
      | drain hr hch =>
          refine .drain hr ?_
          intro d hdm
          rcases List.mem_or_eq_of_mem_set hdm with hdm | hdm
          · exact hch d hdm
          · subst hdm
            exact ih c d (hch c (List.mem_iff_getElem?.mpr ⟨k, hck⟩)) hs

/-- Every record received by `main` is emittable. -/
theorem out_emittable {f : Fetcher} {seed : String} {maxDepth : Int} {visited : List String}
    {s : State} (hs : Reach f (init seed maxDepth visited) s) :
    Task.Within f seed maxDepth s.root ∧ ∀ r ∈ s.out, Emittable f seed maxDepth r := by
  refine Reach.induct
    (fun s => Task.Within f seed maxDepth s.root ∧ ∀ r ∈ s.out, Emittable f seed maxDepth r)
    ?_ ?_ s hs
  · refine ⟨.run (k := 1) Disc.seed (by simp [init]; omega) (fun h => absurd rfl h), ?_⟩
    simp [init]
  · intro s a s' ⟨hw, ho⟩ hst
    rcases step_cases hst with ⟨r, t, hof, e⟩ | ⟨p, t, g, hsa, e⟩ | ⟨_, e⟩
      | ⟨p, q, t, _, _, hl, e⟩ <;> subst e
    · obtain ⟨hgood, ht⟩ := hw.offer_within hof
      refine ⟨ht, ?_⟩
      intro r' hr'
      simp at hr'
      rcases hr' with hr' | hr'
      · exact ho r' hr'
      · subst hr'; exact hgood
    · exact ⟨hw.stepAt_within p _ _ _ _ hsa, ho⟩
    · exact ⟨hw, ho⟩
    · exact ⟨hw.loseAt_within p _ _ hl, ho⟩

/-- C2. Every record received on the root channel in any run of
`Crawl(seed, maxDepth, ...)` has a url that is discovered from the seed,
through references returned by successful fetches, at a depth between 1 and
`maxDepth`, and its body is the one the fetch of that url returns. -/
theorem emitted_within_depth (f : Fetcher) (seed : String) (maxDepth : Int)
    (visited : List String) (s : State) (hs : Reach f (init seed maxDepth visited) s)
    (r : Response) (hr : r ∈ s.out) :
    (∃ k : Nat, 1 ≤ k ∧ (k : Int) ≤ maxDepth ∧ Disc f seed k r.url)
    ∧ ∃ urls, f r.url = some (r.body, urls) := by
  obtain ⟨⟨k, hk, hd⟩, hf⟩ := (out_emittable hs).2 r hr
  exact ⟨⟨k, hd.pos, hk, hd⟩, hf⟩

/-! ## Claimed urls are emitted -/

theorem Task.Carries.not_closed {u : String} {t : Task} (h : Task.Carries u t) :
    t.isClosed = false := by
  cases h <;> rfl

theorem Task.Carries.offer_carries {u : String} {t t' : Task} {r : Response}
    (hc : Task.Carries u t) (h : t.offer = some (r, t')) : r.url = u ∨ Task.Carries u t' := by
  cases hc with
  | claimed => simp [Task.offer] at h
  | send =>
      simp [Task.offer] at h
      obtain ⟨h1, _⟩ := h
      subst h1
      exact Or.inl rfl
  | @resp url body urls sent r₀ i chs hr =>
      simp [Task.offer] at h
      obtain ⟨h1, _⟩ := h
      subst h1
      exact Or.inl hr
  | @child url body urls sent resp i chs c hm hcc =>
      cases resp with
      | none => simp [Task.offer] at h
      | some r₀ =>
          simp [Task.offer] at h
          obtain ⟨_, h2⟩ := h
          subst h2
          exact Or.inr (.child hm hcc)

/-- A child other than the replaced one, or the replacement, is in the list. -/
theorem mem_set_of_ne {α : Type} {l : List α} {j k : Nat} {d c' : α}
    (hj : l[j]? = some d) (hjk : k ≠ j) : d ∈ l.set k c' :=
  List.mem_iff_getElem?.mpr ⟨j, by rw [List.getElem?_set_ne hjk]; exact hj⟩

theorem mem_set_self {α : Type} {l : List α} {k : Nat} {c c' : α}
    (hk : l[k]? = some c) : c' ∈ l.set k c' :=
  List.mem_set l k (List.getElem?_eq_some.mp hk).1 c'

theorem Task.Carries.own_carries {f : Fetcher} {u : String} {t t' : Task} {g g' : Shared}
    (hw : Task.WF f t) (hf : f u ≠ none) (hc : Task.Carries u t)
    (h : Task.own f t g = some (t', g')) : Task.Carries u t' := by
  cases hc with
  | @claimed depth mux pc hpc =>
      rcases hpc with e | e <;> subst e
      · simp [Task.own] at h
        obtain ⟨h1, _⟩ := h
        subst h1
        exact .claimed (Or.inr rfl)
      · simp only [Task.own] at h
        cases hfu : f u with
        | none => exact absurd hfu hf
        | some x =>
            obtain ⟨body, urls⟩ := x
            simp [hfu] at h
            obtain ⟨h1, _⟩ := h
            subst h1
            exact .send
  | send => simp [Task.own] at h
  | resp => simp [Task.own] at h
  | @child url body urls sent resp i chs c hm hcc =>
      cases resp with
      | some r => simp [Task.own] at h
      | none =>
          obtain ⟨j, hj⟩ := List.mem_iff_getElem?.mp hm
          have hq := hw.own_closes h
          obtain ⟨_, ⟨_, e⟩ | ⟨d, _, _, e⟩ | ⟨d, r, d', hdi, _, ho, e⟩⟩ := Task.own_drain_none h
          · subst e
            rcases hq rfl with ⟨_, _, _, e, _⟩ | ⟨_, _, _, e, _⟩ | ⟨_, _, _, e, _⟩
              | ⟨_, _, _, _, _, _, e, _, _, hall⟩
            · cases e
            · cases e
            · cases e
            · cases e
              have := hall c hm
              rw [hcc.not_closed] at this
              cases this
          · subst e
            exact .child hm hcc
          · subst e
            by_cases hji : i = j
            · subst hji
              rw [hdi] at hj
              cases hj
              rcases hcc.offer_carries ho with hr | hc'
              · exact .resp hr
              · exact .child (mem_set_self hdi) hc'
            · exact .child (mem_set_of_ne hj hji) hcc

theorem Task.Carries.stepAt_carries {f : Fetcher} {u : String} (hf : f u ≠ none) :
    ∀ (p : List Nat) (t t' : Task) (g g' : Shared), Task.WF f t → Task.Carries u t →
      Task.stepAt f p t g = some (t', g') → Task.Carries u t' := by
  intro p
  induction p with
  | nil => intro t t' g g' hw hc h; exact hc.own_carries hw hf (by simpa [Task.stepAt] using h)
  | cons k p ih =>
      intro t t' g g' hw hc h
      obtain ⟨url, body, urls, sent, resp, i, chs, c, c', ht, hck, hs, ht'⟩ := Task.stepAt_cons h
      subst ht; subst ht'
      cases hc with
      | resp hr => exact .resp hr
      | @child _ _ _ _ _ _ _ d hm hcd =>
          obtain ⟨j, hj⟩ := List.mem_iff_getElem?.mp hm
          by_cases hjk : k = j
          · subst hjk
            rw [hck] at hj
            cases hj
            cases hw with
            | drain _ _ _ _ _ hch =>
                exact .child (mem_set_self hck) (ih c c' g g' (hch c hm) hcd hs)
          · exact .child (mem_set_of_ne hj hjk) hcd

/-- A url that a step adds to the visited map is carried by the tree. -/
theorem Task.own_marks {f : Fetcher} {t t' : Task} {g g' : Shared}
    (h : Task.own f t g = some (t', g')) :
    ∀ u, u ∈ g'.visited → u ∈ g.visited ∨ Task.Carries u t' := by
  intro u hu
  cases t with
  | run url depth mux pc =>
      cases pc
      case mark =>
        simp [Task.own] at h
        obtain ⟨h1, h2⟩ := h
        subst h1; subst h2
        simp [List.mem_insert_iff] at hu
        rcases hu with hu | hu
        · subst hu
          exact Or.inr (.claimed (Or.inl rfl))
        · exact Or.inl hu
      all_goals
        simp only [Task.own] at h
        try split at h
        all_goals
          simp at h
          try (obtain ⟨_, h2⟩ := h; subst h2; exact Or.inl hu)
  | send => simp [Task.own] at h
  | spawn url depth mux body urls sent =>
      simp [Task.own] at h
      obtain ⟨_, h2⟩ := h
      subst h2
      exact Or.inl hu
  | drain url body urls sent resp i chs =>
      cases resp with
      | some r => simp [Task.own] at h
      | none =>
          obtain ⟨hg, _⟩ := Task.own_drain_none h
          subst hg
          exact Or.inl hu
  | closed => simp [Task.own] at h

theorem Task.stepAt_marks {f : Fetcher} :
    ∀ (p : List Nat) (t t' : Task) (g g' : Shared), Task.stepAt f p t g = some (t', g') →
      ∀ u, u ∈ g'.visited → u ∈ g.visited ∨ Task.Carries u t' := by
  intro p
  induction p with
  | nil => intro t t' g g' h; exact Task.own_marks (by simpa [Task.stepAt] using h)
  | cons k p ih =>
      intro t t' g g' h u hu
      obtain ⟨url, body, urls, sent, resp, i, chs, c, c', ht, hck, hs, ht'⟩ := Task.stepAt_cons h
      subst ht; subst ht'
      rcases ih c c' g g' hs u hu with h1 | h1
      · exact Or.inl h1
      · exact Or.inr (.child (mem_set_self hck) h1)

theorem Task.Carries.loseAt_carries {u : String} :
    ∀ (p : List Nat) (t t' : Task), Task.Carries u t → Task.loseAt p t = some t' →
      Task.Carries u t' := by
  intro p
  induction p with
  | nil =>
      intro t t' hc h
      obtain ⟨url, depth, mux, e, e'⟩ := Task.loseAt_nil h
      subst e; subst e'
      cases hc with
      | claimed hpc => simp at hpc
  | cons k p ih =>
      intro t t' hc h
      obtain ⟨url, body, urls, sent, resp, i, chs, c, c', ht, hck, hs, ht'⟩ := Task.loseAt_cons h
      subst ht; subst ht'
      cases hc with
      | resp hr => exact .resp hr
      | @child _ _ _ _ _ _ _ d hm hcd =>
          obtain ⟨j, hj⟩ := List.mem_iff_getElem?.mp hm
          by_cases hjk : k = j
          · subst hjk
            rw [hck] at hj
            cases hj
            exact .child (mem_set_self hck) (ih c c' hcd hs)
          · exact .child (mem_set_of_ne hj hjk) hcd

/-- Every marked url whose fetch succeeds has been received by `main` or is
carried by the tree. -/
theorem claimed_emitted_or_carried {f : Fetcher} {seed : String} {depth : Int} {s : State}
    (hs : Reach f (init seed depth []) s) :
    ∀ u, u ∈ s.shared.visited → f u ≠ none →
      u ∈ s.out.map Response.url ∨ Task.Carries u s.root := by
  have key : ∀ s, Reach f (init seed depth []) s →
      State.WF f s ∧ ∀ u, u ∈ s.shared.visited → f u ≠ none →
        u ∈ s.out.map Response.url ∨ Task.Carries u s.root := by
    refine Reach.induct _ ⟨State.WF.init_wf f seed depth [], by simp [init]⟩ ?_
    intro s a s' ⟨hw, hv⟩ hst
    refine ⟨hw.step_wf hst, ?_⟩
    intro u hu hf
    rcases step_cases hst with ⟨r, t, hof, e⟩ | ⟨p, t, g, hsa, e⟩ | ⟨_, e⟩
      | ⟨p, q, t, _, _, hl, e⟩ <;> subst e
    · simp only [List.map_append, List.mem_append]
      rcases hv u hu hf with h1 | h1
      · exact Or.inl (Or.inl h1)
      · rcases h1.offer_carries hof with h2 | h2
        · exact Or.inl (Or.inr (by simp [h2]))
        · exact Or.inr h2
    · rcases Task.stepAt_marks p _ _ _ _ hsa u hu with h1 | h1
      · rcases hv u h1 hf with h2 | h2
        · exact Or.inl h2
        · exact Or.inr (Task.Carries.stepAt_carries hf p _ _ _ _ hw.1 h2 hsa)
      · exact Or.inr h1
    · exact hv u hu hf
    · rcases hv u hu hf with h2 | h2
      · exact Or.inl h2
      · exact Or.inr (h2.loseAt_carries p _ _ hl)
  exact (key s hs).2

/-! ## The references of the seed -/

theorem Task.Settled.mono {f : Fetcher} {c : Task} {v v' : List String} (h : c.Settled f v)
    (hm : ∀ u, u ∈ v → u ∈ v') : c.Settled f v' := by
  rcases h with h | h | h
  · exact Or.inl (hm _ h)
  · exact Or.inr (Or.inl h)
  · exact Or.inr (Or.inr h)

theorem Task.Settled.of_closed {f : Fetcher} {c : Task} {v : List String} (h : c.Settled f v)
    (hc : c.isClosed = true) :
    c.url ∈ v ∨ f c.url = none ∨ c.url ∈ c.delivered.map Response.url := by
  rcases h with h | ⟨u, d, mux, pc, e, _⟩ | h
  · exact Or.inl h
  · subst e
    simp [Task.isClosed] at hc
  · by_cases hf : f c.url = none
    · exact Or.inr (Or.inl hf)
    · rcases h hf with h | h
      · rw [h.not_closed] at hc
        cases hc
      · exact Or.inr (Or.inr h)

theorem Task.Settled.offer_settled {f : Fetcher} {c c' : Task} {r : Response}
    {v : List String} (h : c.Settled f v) (ho : c.offer = some (r, c')) : c'.Settled f v := by
  have hurl := Task.offer_url ho
  have hdel := Task.offer_delivered ho
  rcases h with h | ⟨u, d, mux, pc, e, _⟩ | h
  · exact Or.inl (by rw [hurl]; exact h)
  · subst e
    simp [Task.offer] at ho
  · refine Or.inr (Or.inr ?_)
    rw [hurl, hdel]
    intro hf
    rcases h hf with h | h
    · rcases h.offer_carries ho with h1 | h1
      · exact Or.inr (by simp [h1])
      · exact Or.inl h1
    · exact Or.inr (by simp only [List.map_append, List.mem_append]; exact Or.inl h)

theorem Task.Settled.stepAt_settled {f : Fetcher} {p : List Nat} {c c' : Task} {g g' : Shared}
    (hw : Task.WF f c) (h : c.Settled f g.visited)
    (hs : Task.stepAt f p c g = some (c', g')) : c'.Settled f g'.visited := by
  obtain ⟨hurl, hdel⟩ := Task.stepAt_url_delivered p c c' g g' hs
  rcases h with h | ⟨u, d, mux, pc, e, hd, hpc⟩ | h
  · left
    rw [hurl]
    exact Task.stepAt_visited p c c' g g' hs _ h
  · subst e
    cases p with
    | cons k p => simp [Task.stepAt] at hs
    | nil =>
        have hd' : ¬ d ≤ 0 := by omega
        simp only [Task.stepAt] at hs
        rcases hpc with e | e | e | e <;> subst e
        · simp [Task.own, hd'] at hs
          obtain ⟨h1, _⟩ := hs
          subst h1
          exact Or.inr (Or.inl ⟨u, d, mux, .lock, rfl, hd, by simp⟩)
        · cases mux <;> simp [Task.own] at hs
          obtain ⟨h1, _⟩ := hs
          subst h1
          exact Or.inr (Or.inl ⟨u, d, true, .test, rfl, hd, by simp⟩)
        · simp only [Task.own] at hs
          split at hs
          · simp at hs
            obtain ⟨h1, h2⟩ := hs
            subst h1; subst h2
            exact Or.inl (by simpa [Task.url])
          · simp at hs
            obtain ⟨h1, _⟩ := hs
            subst h1
            exact Or.inr (Or.inl ⟨u, d, mux, .mark, rfl, hd, by simp⟩)
        · simp [Task.own] at hs
          obtain ⟨h1, h2⟩ := hs
          subst h1; subst h2
          exact Or.inl (by simp [Task.url, List.mem_insert_iff])
  · refine Or.inr (Or.inr ?_)
    rw [hurl, hdel]
    intro hf
    rcases h hf with h | h
    · exact Or.inl (Task.Carries.stepAt_carries hf p c c' g g' hw h hs)
    · exact Or.inr h

theorem Task.Settled.loseAt_settled {f : Fetcher} {p : List Nat} {c c' : Task}
    {v : List String} (h : c.Settled f v) (hs : Task.loseAt p c = some c') :
    c'.Settled f v := by
  obtain ⟨hurl, hdel⟩ := Task.loseAt_url_delivered p c c' hs
  rcases h with h | ⟨u, d, mux, pc, e, hd, hpc⟩ | h
  · exact Or.inl (by rw [hurl]; exact h)
  · subst e
    cases p with
    | cons k p => simp [Task.loseAt] at hs
    | nil =>
        obtain ⟨url, depth, mux', e, e'⟩ := Task.loseAt_nil hs
        cases e
        subst e'
        exact Or.inr (Or.inr (fun _ => Or.inl (.claimed (Or.inl rfl))))
  · refine Or.inr (Or.inr ?_)
    rw [hurl, hdel]
    intro hf
    rcases h hf with h | h
    · exact Or.inl (h.loseAt_carries p c c' hs)
    · exact Or.inr h

theorem RootInv.step_root {f : Fetcher} {seed : String} {maxDepth : Int} (hd : 1 ≤ maxDepth)
    {a : Action} {s s' : State} (hw : State.WF f s) (hr : RootInv f seed maxDepth s)
    (hst : Crawler.step f a s = some s') : RootInv f seed maxDepth s' := by
  have hd' : ¬ maxDepth ≤ 0 := by omega
  obtain ⟨root, g, out, ab⟩ := s
  obtain ⟨hwr, _⟩ := hw
  simp only at hwr
  rcases step_cases hst with ⟨r, t, hof, e⟩ | ⟨p, t, g', hsa, e⟩ | ⟨_, e⟩
    | ⟨p, q, t, hpq, hq, hl, e⟩ <;> subst e <;> simp only at *
  · cases root with
    | run => simp [Task.offer] at hof
    | spawn => simp [Task.offer] at hof
    | closed => simp [Task.offer] at hof
    | send url depth mux body urls =>
        simp [Task.offer] at hof
        obtain ⟨_, h2⟩ := hof
        subst h2
        simpa [RootInv] using hr
    | drain url body urls sent resp i chs =>
        cases resp with
        | none => simp [Task.offer] at hof
        | some r₀ =>
            simp [Task.offer] at hof
            obtain ⟨_, h2⟩ := hof
            subst h2
            simpa [RootInv] using hr
  · have hmono := Task.stepAt_visited p _ _ _ _ hsa
    cases p with
    | cons k p =>
        obtain ⟨url, body, urls, sent, resp, i, chs, c, c', ht, hck, hs, ht'⟩ :=
          Task.stepAt_cons hsa
        subst ht; subst ht'
        have hwc : Task.WF f c := by
          cases hwr with
          | drain _ _ _ _ _ hch => exact hch c (List.mem_iff_getElem?.mpr ⟨k, hck⟩)
        simp only [RootInv] at hr ⊢
        obtain ⟨h1, h2, h3⟩ := hr
        refine ⟨h1, hmono _ h2, fun h2d d hdm => ?_⟩
        rcases List.mem_or_eq_of_mem_set hdm with hdm | hdm
        · exact (h3 h2d d hdm).mono hmono
        · subst hdm
          exact (h3 h2d c (List.mem_iff_getElem?.mpr ⟨k, hck⟩)).stepAt_settled hwc hs
    | nil =>
        simp only [Task.stepAt] at hsa
        cases root with
        | send => simp [Task.own] at hsa
        | closed => simp [Task.own] at hsa
        | spawn url depth mux body urls sent =>
            simp [Task.own] at hsa
            obtain ⟨e1, e2⟩ := hsa
            subst e1; subst e2
            simp only [RootInv] at hr ⊢
            obtain ⟨h1, h2, h3⟩ := hr
            refine ⟨h1, h3, fun h2d c hc => ?_⟩
            simp at hc
            obtain ⟨v, _, e⟩ := hc
            subst e
            exact Or.inr (Or.inl ⟨v, depth - 1, mux, .start, rfl, by omega, by simp⟩)
              | run url depth mux pc =>
            simp only [RootInv] at hr
            obtain ⟨h1, h2, h3, h4, h5⟩ := hr
            subst h1; subst h2
            cases pc
            case start =>
              simp [Task.own, hd'] at hsa
              obtain ⟨e1, e2⟩ := hsa
              subst e1; subst e2
              simpa [RootInv] using h4
            case lock =>
              cases mux <;> simp [Task.own] at hsa
              obtain ⟨e1, e2⟩ := hsa
              subst e1; subst e2
              simpa [RootInv] using h4
            case test =>
              have hv : g.visited = [] := h4 (by simp)
              simp [Task.own, hv] at hsa
              obtain ⟨e1, e2⟩ := hsa
              subst e1; subst e2
              simp [RootInv]
            case unlockRet => exact absurd rfl h3
            case mark =>
              simp [Task.own] at hsa
              obtain ⟨e1, e2⟩ := hsa
              subst e1; subst e2
              simp [RootInv, List.mem_insert_iff]
            case unlock =>
              simp [Task.own] at hsa
              obtain ⟨e1, e2⟩ := hsa
              subst e1; subst e2
              simpa [RootInv] using h5
            case fetch =>
              have hv : url ∈ g.visited := h5 (by simp)
              simp only [Task.own] at hsa
              cases hfu : f url with
              | none =>
                  simp [hfu] at hsa
                  obtain ⟨e1, e2⟩ := hsa
                  subst e1; subst e2
                  simp [RootInv, hv, hfu]
              | some x =>
                  obtain ⟨body, urls⟩ := x
                  simp [hfu] at hsa
                  obtain ⟨e1, e2⟩ := hsa
                  subst e1; subst e2
                  simp [RootInv, hv]
        | drain url body urls sent resp i chs =>
            simp only [RootInv] at hr
            obtain ⟨h1, h2, h3⟩ := hr
            cases resp with
            | some r => simp [Task.own] at hsa
            | none =>
                have hq := hwr.own_closes hsa
                obtain ⟨hg, ⟨_, e⟩ | ⟨c, _, _, e⟩ | ⟨c, r, c', hci, _, ho, e⟩⟩ :=
                  Task.own_drain_none hsa <;> subst e <;> subst hg
                · simp only [RootInv]
                  refine ⟨h2, fun h2d b urls' hf v hv => ?_⟩
                  rcases hq rfl with ⟨_, _, _, e, _⟩ | ⟨_, _, _, e, _⟩ | ⟨_, _, _, e, _⟩
                    | ⟨_, _, _, _, _, _, e, _, hsent, hall⟩
                  · cases e
                  · cases e
                  · cases e
                  · cases e
                    cases hwr with
                    | drain hf' hu _ _ _ _ =>
                        subst h1
                        rw [hf'] at hf
                        simp at hf
                        obtain ⟨_, e⟩ := hf
                        subst e
                        rw [← hu] at hv
                        simp at hv
                        obtain ⟨c, hcm, e⟩ := hv
                        subst e
                        rcases (h3 h2d c hcm).of_closed (hall c hcm) with h | h | h
                        · exact Or.inl h
                        · exact Or.inr (Or.inl h)
                        · refine Or.inr (Or.inr ?_)
                          simp only [List.mem_map] at h ⊢
                          obtain ⟨r, hr, hru⟩ := h
                          refine ⟨r, ?_, hru⟩
                          rw [hsent]
                          exact List.mem_cons_of_mem _
                            (List.mem_flatten.mpr ⟨c.delivered, List.mem_map_of_mem _ hcm, hr⟩)
                · simp only [RootInv]
                  exact ⟨h1, h2, h3⟩
                · simp only [RootInv]
                  refine ⟨h1, h2, fun h2d d hdm => ?_⟩
                  rcases List.mem_or_eq_of_mem_set hdm with hdm | hdm
                  · exact h3 h2d d hdm
                  · subst hdm
                    exact (h3 h2d c (List.mem_iff_getElem?.mpr ⟨i, hci⟩)).offer_settled ho
  · simpa [RootInv] using hr
  · cases p with
    | nil =>
        obtain ⟨url, depth, mux, e, e'⟩ := Task.loseAt_nil hl
        subst e
        exact (Task.loseAt_alone (by intro k p; simp [Task.sub]) hpq hq hl).elim
    | cons k p =>
        obtain ⟨url, body, urls, sent, resp, i, chs, c, c', ht, hck, hs, ht'⟩ :=
          Task.loseAt_cons hl
        subst ht; subst ht'
        simp only [RootInv] at hr ⊢
        obtain ⟨h1, h2, h3⟩ := hr
        refine ⟨h1, h2, fun h2d d hdm => ?_⟩
        rcases List.mem_or_eq_of_mem_set hdm with hdm | hdm
        · exact h3 h2d d hdm
        · subst hdm
          exact (h3 h2d c (List.mem_iff_getElem?.mpr ⟨k, hck⟩)).loseAt_settled hs

theorem RootInv.reach_root {f : Fetcher} {seed : String} {maxDepth : Int} (hd : 1 ≤ maxDepth)
    {s : State} (hs : Reach f (init seed maxDepth []) s) : RootInv f seed maxDepth s := by
  have key : ∀ s, Reach f (init seed maxDepth []) s →
      State.WF f s ∧ RootInv f seed maxDepth s := by
    refine Reach.induct _ ⟨State.WF.init_wf f seed maxDepth [], by simp [RootInv, init]⟩ ?_
    intro s a s' ⟨hw, hr⟩ hst
    exact ⟨hw.step_wf hst, RootInv.step_root hd hw hr hst⟩
  exact (key s hs).2

/-- The identifiers at discovery depth 1 or 2 that a complete run emits. -/
theorem emitted_shallow {f : Fetcher} {seed : String} {maxDepth : Int} {s : State}
    (hs : Reach f (init seed maxDepth []) s) (hc : s.root.isClosed = true)
    (u : String) (k : Nat) (hk : k ≤ 2) (hu : Disc f seed k u) :
    u ∈ s.out.map Response.url ↔
      f u ≠ none ∧ ((1 ≤ maxDepth ∧ u = seed)
        ∨ (2 ≤ maxDepth ∧ ∃ b urls, f seed = some (b, urls) ∧ u ∈ urls)) := by
  have closedOut : ∀ v, v ∈ s.shared.visited → f v ≠ none → v ∈ s.out.map Response.url := by
    intro v hv hf
    rcases claimed_emitted_or_carried hs v hv hf with h | h
    · exact h
    · rw [h.not_closed] at hc
      cases hc
  have hout : s.out = s.root.delivered := (State.WF.reach_wf hs).2
  constructor
  · intro hm
    simp at hm
    obtain ⟨r, hr, e⟩ := hm
    subst e
    obtain ⟨⟨k', hk', hd'⟩, urls, hf⟩ := (out_emittable hs).2 r hr
    refine ⟨by simp [hf], ?_⟩
    have hk1 := hd'.pos
    cases hu with
    | seed => exact Or.inl ⟨by omega, rfl⟩
    | @ref k₀ w _ b us hw hfw hmem =>
        have hk0 : k₀ = 1 := by have := hw.pos; omega
        subst hk0
        cases hw with
        | seed =>
            cases hd' with
            | seed => exact Or.inl ⟨by omega, rfl⟩
            | ref h1 _ _ =>
                have := h1.pos
                exact Or.inr ⟨by omega, b, us, hfw, hmem⟩
        | ref h1 _ _ => have := h1.pos; omega
  · rintro ⟨hf, ⟨hd, e⟩ | ⟨hd, b, urls, hfs, hm⟩⟩
    · subst e
      have hr := RootInv.reach_root hd hs
      cases hroot : s.root with
      | closed url sent =>
          simp only [RootInv, hroot] at hr
          exact closedOut _ hr.1 hf
      | run => simp [hroot, Task.isClosed] at hc
      | send => simp [hroot, Task.isClosed] at hc
      | spawn => simp [hroot, Task.isClosed] at hc
      | drain => simp [hroot, Task.isClosed] at hc
    · have hr := RootInv.reach_root (by omega : 1 ≤ maxDepth) hs
      cases hroot : s.root with
      | closed url sent =>
          simp only [RootInv, hroot] at hr
          rcases hr.2 hd b urls hfs u hm with h | h | h
          · exact closedOut _ h hf
          · exact absurd h hf
          · rw [hout, hroot]
            exact h
      | run => simp [hroot, Task.isClosed] at hc
      | send => simp [hroot, Task.isClosed] at hc
      | spawn => simp [hroot, Task.isClosed] at hc
      | drain => simp [hroot, Task.isClosed] at hc

/-! ## Two runs -/

/-- C8 (the claim fails as stated). For `depthGraph`, seed `A`, depth 3 and
an empty visited map, two complete runs emit different sets of identifiers:
one emits `D`, the other does not. -/
theorem runs_differ :
    (exec depthGraph.Fetch depthScheduleWide (init "A" 3 [])).map
        (fun s => (s.root.isClosed, s.out.map Response.url)) = some (true, ["A", "B", "C", "D"])
    ∧ (exec depthGraph.Fetch depthScheduleDeep (init "A" 3 [])).map
        (fun s => (s.root.isClosed, s.out.map Response.url)) = some (true, ["A", "B", "C"]) := by
  decide

/-- C8 (amended). Two complete runs of `Crawl(seed, maxDepth, ...)` from an
empty visited map emit the same identifiers among those at discovery depth 1
or 2, and when `maxDepth <= 2` they emit the same set of identifiers. -/
theorem runs_agree_shallow (f : Fetcher) (seed : String) (maxDepth : Int) (s₁ s₂ : State)
    (h₁ : Reach f (init seed maxDepth []) s₁) (h₂ : Reach f (init seed maxDepth []) s₂)
    (c₁ : s₁.root.isClosed = true) (c₂ : s₂.root.isClosed = true) :
    (∀ u k, k ≤ 2 → Disc f seed k u →
        (u ∈ s₁.out.map Response.url ↔ u ∈ s₂.out.map Response.url))
    ∧ (maxDepth ≤ 2 → ∀ u, u ∈ s₁.out.map Response.url ↔ u ∈ s₂.out.map Response.url) := by
  have shallow : ∀ u k, k ≤ 2 → Disc f seed k u →
      (u ∈ s₁.out.map Response.url ↔ u ∈ s₂.out.map Response.url) := by
    intro u k hk hu
    rw [emitted_shallow h₁ c₁ u k hk hu, emitted_shallow h₂ c₂ u k hk hu]
  refine ⟨shallow, fun hd u => ?_⟩
  have depthOf : ∀ s, Reach f (init seed maxDepth []) s → u ∈ s.out.map Response.url →
      ∃ k, k ≤ 2 ∧ Disc f seed k u := by
    intro s hs hm
    simp at hm
    obtain ⟨r, hr, e⟩ := hm
    subst e
    obtain ⟨⟨k, hk, hdk⟩, _⟩ := (out_emittable hs).2 r hr
    exact ⟨k, by omega, hdk⟩
  constructor
  · intro hm
    obtain ⟨k, hk, hdk⟩ := depthOf s₁ h₁ hm
    exact (shallow u k hk hdk).mp hm
  · intro hm
    obtain ⟨k, hk, hdk⟩ := depthOf s₂ h₂ hm
    exact (shallow u k hk hdk).mpr hm

/-! ## The theorems at concrete runs -/

theorem emitted_within_depth_witness :
    exec overlapGraph.Fetch overlapSchedule (init "A" 3 []) = some overlapFinal
    ∧ (⟨"C", "c"⟩ : Response) ∈ overlapFinal.out
    ∧ (∃ k : Nat, 1 ≤ k ∧ (k : Int) ≤ 3 ∧ Disc overlapGraph.Fetch "A" k "C")
    ∧ ∃ urls, overlapGraph.Fetch "C" = some ("c", urls) :=
  ⟨rfl, by decide,
    emitted_within_depth overlapGraph.Fetch "A" 3 [] overlapFinal
      (Reach.of_exec overlapSchedule _ _ Reach.refl rfl) ⟨"C", "c"⟩ (by decide)⟩

theorem task_stream_witness :
    exec cycleGraph.Fetch (cycleSchedule.take 35) (init "A" 4 []) = some cycleDrained
    ∧ cycleGraph.Fetch "A" = some ("a", ["B", "C"])
    ∧ [Task.closed "B" [⟨"B", "b"⟩], Task.closed "C" [⟨"C", "c"⟩]].map Task.url = ["B", "C"]
    ∧ [(⟨"A", "a"⟩ : Response), ⟨"B", "b"⟩, ⟨"C", "c"⟩] ++ (none : Option Response).toList
        = ⟨"A", "a"⟩
          :: ([Task.closed "B" [⟨"B", "b"⟩], Task.closed "C" [⟨"C", "c"⟩]].map
                Task.delivered).flatten
    ∧ ∀ t' g',
        Task.own cycleGraph.Fetch
          (.drain "A" "a" ["B", "C"] [⟨"A", "a"⟩, ⟨"B", "b"⟩, ⟨"C", "c"⟩] none 2
            [.closed "B" [⟨"B", "b"⟩], .closed "C" [⟨"C", "c"⟩]])
          cycleDrained.shared = some (t', g') →
        t'.isClosed = true →
        t' = .closed "A" [⟨"A", "a"⟩, ⟨"B", "b"⟩, ⟨"C", "c"⟩]
        ∧ [(⟨"A", "a"⟩ : Response), ⟨"B", "b"⟩, ⟨"C", "c"⟩]
            = ⟨"A", "a"⟩
              :: ([Task.closed "B" [⟨"B", "b"⟩], Task.closed "C" [⟨"C", "c"⟩]].map
                    Task.delivered).flatten
        ∧ ∀ c ∈ [Task.closed "B" [⟨"B", "b"⟩], Task.closed "C" [⟨"C", "c"⟩]],
            c.isClosed = true :=
  ⟨rfl,
    task_stream cycleGraph.Fetch "A" 4 [] cycleDrained
      (Reach.of_exec (cycleSchedule.take 35) _ _ Reach.refl rfl)
      [] "A" "a" ["B", "C"] [⟨"A", "a"⟩, ⟨"B", "b"⟩, ⟨"C", "c"⟩] none 2
      [.closed "B" [⟨"B", "b"⟩], .closed "C" [⟨"C", "c"⟩]] rfl⟩

theorem runs_agree_shallow_witness :
    exec depthGraph.Fetch depthScheduleWide (init "A" 3 []) = some depthWideFinal
    ∧ exec depthGraph.Fetch depthScheduleDeep (init "A" 3 []) = some depthDeepFinal
    ∧ depthWideFinal.root.isClosed = true ∧ depthDeepFinal.root.isClosed = true
    ∧ (∀ u k, k ≤ 2 → Disc depthGraph.Fetch "A" k u →
        (u ∈ depthWideFinal.out.map Response.url ↔ u ∈ depthDeepFinal.out.map Response.url))
    ∧ ((3 : Int) ≤ 2 → ∀ u,
        u ∈ depthWideFinal.out.map Response.url ↔ u ∈ depthDeepFinal.out.map Response.url) :=
  ⟨rfl, rfl, rfl, rfl,
    runs_agree_shallow depthGraph.Fetch "A" 3 depthWideFinal depthDeepFinal
      (Reach.of_exec depthScheduleWide _ _ Reach.refl rfl)
      (Reach.of_exec depthScheduleDeep _ _ Reach.refl rfl) rfl rfl⟩

end Crawler
